import Mathlib

/-!
Verification model of the ear-clipping polygon triangulation program
(`geom.hpp` and `triangulation.cpp`).

The embedding follows the source closely:

* coordinates (`double` in the source) are modelled exactly as rationals;
* `std::set<std::size_t>` is modelled as a strictly sorted `List ℕ`
  (`sInsert` keeps the order, `sErase` removes a key, iteration order and
  `*begin()` are the list order and its head);
* `std::vector` is a plain `List`;
* every C++ function that can throw returns `Except CppError`; each throw
  site of the program gets its own `CppError` constructor.
-/

/-- A triangle over an arbitrary corner type, as declared in `geom.hpp`. -/
structure Triangle (α : Type) where
  A : α
  B : α
  C : α
deriving DecidableEq, Repr

/-- A 2-d point, the `geom::vec2` struct; `double` coordinates are modelled
exactly as rationals. -/
structure Vec2 where
  x : ℚ
  y : ℚ
deriving DecidableEq, Repr

namespace geom

/-- `geom::sign(p1, p2, p3)` from `geom.hpp`. -/
def sign (p1 p2 p3 : Vec2) : ℚ :=
  (p1.x - p3.x) * (p2.y - p3.y) - (p2.x - p3.x) * (p1.y - p3.y)

/-- `geom::point_in_triangle` from `geom.hpp`: three half-plane tests, and the
point counts as contained unless some test is negative and some is positive. -/
def point_in_triangle (tri : Triangle Vec2) (pt : Vec2) : Bool :=
  let d1 := sign pt tri.A tri.B
  let d2 := sign pt tri.B tri.C
  let d3 := sign pt tri.C tri.A
  let has_neg := decide (d1 < 0) || decide (d2 < 0) || decide (d3 < 0)
  let has_pos := decide (d1 > 0) || decide (d2 > 0) || decide (d3 > 0)
  !(has_neg && has_pos)

/-- `geom::det(A, B, C)` from `geom.hpp`. -/
def det (A B C : Vec2) : ℚ :=
  (B.x - A.x) * (C.y - B.y) - (C.x - B.x) * (B.y - A.y)

/-- `geom::det(tri)`, the overload taking a triangle. -/
def detT (tri : Triangle Vec2) : ℚ := det tri.A tri.B tri.C

/-- `geom::is_convex` from `geom.hpp`: strictly positive determinant. -/
def is_convex (tri : Triangle Vec2) : Bool := decide (detT tri > 0)

/-- `geom::is_reflex` from `geom.hpp`: strictly negative determinant. -/
def is_reflex (tri : Triangle Vec2) : Bool := decide (detT tri < 0)

end geom

/-- The error outcomes of the program, one constructor per throw site:
`outOfRange` is the `std::out_of_range` of `build_triangle_at_index` and of
`std::vector::at`; `elementNotFound` the `std::logic_error` of
`build_triangle_at_element`; `earListEmpty` the `std::logic_error` of
`get_next_ear`; `nonSimple` the `std::logic_error` thrown by `triangulate`. -/
inductive CppError where
  | outOfRange : CppError
  | elementNotFound : CppError
  | earListEmpty : CppError
  | nonSimple : CppError
deriving DecidableEq, Repr

/-- `build_triangle_at_index` from `triangulation.cpp` (instantiated, as in the
program, at `T = std::size_t`): bounds check, then the triple
`(v[i>0 ? i-1 : size-1], v[i], v[i<size-1 ? i+1 : size-1])`. -/
def build_triangle_at_index (v : List ℕ) (i : ℕ) : Except CppError (Triangle ℕ) :=
  if i ≥ v.length then .error .outOfRange
  else .ok { A := v.getD (if i > 0 then i - 1 else v.length - 1) 0,
             B := v.getD i 0,
             C := v.getD (if i < v.length - 1 then i + 1 else v.length - 1) 0 }

/-- `build_triangle_at_element` from `triangulation.cpp`: `std::find` for the
element, throw if absent, otherwise delegate to the index version at the
position of the first occurrence. -/
def build_triangle_at_element (v : List ℕ) (e : ℕ) : Except CppError (Triangle ℕ) :=
  if e ∈ v then build_triangle_at_index v (v.indexOf e)
  else .error .elementNotFound

/-- `make_triangle_real` from `triangulation.cpp`: resolve the three indices
through `std::vector::at`, which throws `std::out_of_range` when out of
bounds. -/
def make_triangle_real (v : List Vec2) (tri : Triangle ℕ) : Except CppError (Triangle Vec2) :=
  if tri.A < v.length ∧ tri.B < v.length ∧ tri.C < v.length then
    .ok { A := v.getD tri.A ⟨0, 0⟩, B := v.getD tri.B ⟨0, 0⟩, C := v.getD tri.C ⟨0, 0⟩ }
  else .error .outOfRange

/-- Insertion into a strictly sorted list of naturals, the model of
`std::set<std::size_t>::insert`. -/
def sInsert (x : ℕ) : List ℕ → List ℕ
  | [] => [x]
  | y :: ys => if x < y then x :: y :: ys else if x = y then y :: ys else y :: sInsert x ys

/-- Removal of a key, the model of `std::set<std::size_t>::erase(key)`. -/
def sErase (x : ℕ) (l : List ℕ) : List ℕ := l.filter (fun y => decide (y ≠ x))

/-- The state of the `polygon` class from `triangulation.cpp`: the caller's
point array, the mutable ring of indices, and the three classification sets. -/
structure Polygon where
  vertices : List Vec2
  vertex_list : List ℕ
  convex_list : List ℕ
  reflex_list : List ℕ
  ear_list : List ℕ
deriving DecidableEq, Repr

/-- `polygon::build_fake_triangle_at`. -/
def Polygon.build_fake_triangle_at (p : Polygon) (vertex : ℕ) : Except CppError (Triangle ℕ) :=
  build_triangle_at_element p.vertex_list vertex

/-- `polygon::make_triangle_real` (the member function). -/
def Polygon.make_real (p : Polygon) (fake : Triangle ℕ) : Except CppError (Triangle Vec2) :=
  make_triangle_real p.vertices fake

/-- `polygon::build_real_triangle_at`. -/
def Polygon.build_real_triangle_at (p : Polygon) (vertex : ℕ) : Except CppError (Triangle Vec2) :=
  match p.build_fake_triangle_at vertex with
  | .error e => .error e
  | .ok fake => p.make_real fake

/-- The scan in the body of `polygon::is_ear`: true when no vertex of the
reflex set has its point inside or on the given triangle. -/
def Polygon.earScan (p : Polygon) (t : Triangle Vec2) : Bool :=
  !(p.reflex_list.any fun r => geom.point_in_triangle t (p.vertices.getD r ⟨0, 0⟩))

/-- `polygon::is_convex`: the cached set is consulted first, and only a cache
miss recomputes the geometric test. -/
def Polygon.is_convex (p : Polygon) (vertex : ℕ) : Except CppError Bool :=
  if vertex ∈ p.convex_list then .ok true
  else match p.build_real_triangle_at vertex with
    | .error e => .error e
    | .ok t => .ok (geom.is_convex t)

/-- `polygon::is_reflex`: cached set first, geometric recomputation on miss. -/
def Polygon.is_reflex (p : Polygon) (vertex : ℕ) : Except CppError Bool :=
  if vertex ∈ p.reflex_list then .ok true
  else match p.build_real_triangle_at vertex with
    | .error e => .error e
    | .ok t => .ok (geom.is_reflex t)

/-- `polygon::is_ear`: optional pre-test against the cached ear set, then the
scan of the whole reflex set against the current local triangle. -/
def Polygon.is_ear (p : Polygon) (vertex : ℕ) (pre_test : Bool) : Except CppError Bool :=
  if pre_test ∧ vertex ∈ p.ear_list then .ok true
  else match p.build_real_triangle_at vertex with
    | .error e => .error e
    | .ok t => .ok (p.earScan t)

/-- `polygon::update_vertex_convexity`: a vertex that tests convex is inserted
into the convex set and erased from the reflex set; otherwise nothing. -/
def Polygon.update_vertex_convexity (p : Polygon) (vertex : ℕ) :
    Except CppError (Bool × Polygon) :=
  match p.is_convex vertex with
  | .error e => .error e
  | .ok true => .ok (true, { p with convex_list := sInsert vertex p.convex_list,
                                    reflex_list := sErase vertex p.reflex_list })
  | .ok false => .ok (false, p)

/-- `polygon::update_vertex_earness`: fresh ear test (no pre-test), inserting
into or erasing from the ear set accordingly. -/
def Polygon.update_vertex_earness (p : Polygon) (vertex : ℕ) :
    Except CppError (Bool × Polygon) :=
  match p.is_ear vertex false with
  | .error e => .error e
  | .ok true => .ok (true, { p with ear_list := sInsert vertex p.ear_list })
  | .ok false => .ok (false, { p with ear_list := sErase vertex p.ear_list })

/-- `polygon::update_vertex`: earness is re-examined only when the convexity
update reports the vertex convex. -/
def Polygon.update_vertex (p : Polygon) (vertex : ℕ) : Except CppError Polygon :=
  match p.update_vertex_convexity vertex with
  | .error e => .error e
  | .ok (true, p1) =>
    (match p1.update_vertex_earness vertex with
     | .error e => .error e
     | .ok (_, p2) => .ok p2)
  | .ok (false, p1) => .ok p1

/-- `polygon::remove_vertex`: capture the local index triangle, erase the
vertex from the ring and the three sets, then update both captured
neighbours. -/
def Polygon.remove_vertex (p : Polygon) (vertex : ℕ) :
    Except CppError (Triangle ℕ × Polygon) :=
  match p.build_fake_triangle_at vertex with
  | .error e => .error e
  | .ok ABC =>
    let p1 : Polygon := { p with vertex_list := p.vertex_list.erase vertex,
                                 convex_list := sErase vertex p.convex_list,
                                 reflex_list := sErase vertex p.reflex_list,
                                 ear_list := sErase vertex p.ear_list }
    match p1.update_vertex ABC.A with
    | .error e => .error e
    | .ok p2 =>
      match p2.update_vertex ABC.C with
      | .error e => .error e
      | .ok p3 => .ok (ABC, p3)

/-- `polygon::has_ear`. -/
def Polygon.has_ear (p : Polygon) : Bool := !p.ear_list.isEmpty

/-- `polygon::get_next_ear`: throws on an empty ear set, otherwise
`*(ear_list.begin())`, the least element of the ordered set. -/
def Polygon.get_next_ear (p : Polygon) : Except CppError ℕ :=
  match p.ear_list with
  | [] => .error .earListEmpty
  | v :: _ => .ok v

/-- `polygon::size`. -/
def Polygon.size (p : Polygon) : ℕ := p.vertex_list.length

/-- The first constructor loop of `polygon::polygon`: classify every ring
vertex as convex and/or reflex from its local triangle. -/
def classifyLoop (p : Polygon) : List ℕ → Except CppError Polygon
  | [] => .ok p
  | v :: rest =>
    match p.build_real_triangle_at v with
    | .error e => .error e
    | .ok ABC =>
      let p1 := if geom.is_convex ABC then { p with convex_list := sInsert v p.convex_list }
                else p
      let p2 := if geom.is_reflex ABC then { p1 with reflex_list := sInsert v p1.reflex_list }
                else p1
      classifyLoop p2 rest

/-- The second constructor loop of `polygon::polygon`: seed the ear set from
the convex set, with a fresh ear test for each member. -/
def earLoop (p : Polygon) : List ℕ → Except CppError Polygon
  | [] => .ok p
  | v :: rest =>
    match p.is_ear v false with
    | .error e => .error e
    | .ok true => earLoop { p with ear_list := sInsert v p.ear_list } rest
    | .ok false => earLoop p rest

/-- `polygon::polygon(vertices)`: ring `[0 .. n-1]`, then the two seeding
loops (the second iterates over the convex set just built). -/
def mkPolygon (vs : List Vec2) : Except CppError Polygon :=
  let p0 : Polygon := { vertices := vs, vertex_list := List.range vs.length,
                        convex_list := [], reflex_list := [], ear_list := [] }
  match classifyLoop p0 p0.vertex_list with
  | .error e => .error e
  | .ok p1 => earLoop p1 p1.convex_list

/-- A successful `update_vertex_convexity` never changes the ring or the
point array. -/
theorem update_vertex_convexity_ring {p : Polygon} {v : ℕ} {b : Bool} {p' : Polygon}
    (h : p.update_vertex_convexity v = .ok (b, p')) :
    p'.vertex_list = p.vertex_list ∧ p'.vertices = p.vertices := by
  unfold Polygon.update_vertex_convexity at h
  cases hc : p.is_convex v with
  | error e => rw [hc] at h; cases h
  | ok bc =>
    rw [hc] at h
    cases bc with
    | true => cases h; exact ⟨rfl, rfl⟩
    | false => cases h; exact ⟨rfl, rfl⟩

/-- A successful `update_vertex_earness` never changes the ring or the point
array. -/
theorem update_vertex_earness_ring {p : Polygon} {v : ℕ} {b : Bool} {p' : Polygon}
    (h : p.update_vertex_earness v = .ok (b, p')) :
    p'.vertex_list = p.vertex_list ∧ p'.vertices = p.vertices := by
  unfold Polygon.update_vertex_earness at h
  cases hc : p.is_ear v false with
  | error e => rw [hc] at h; cases h
  | ok bc =>
    rw [hc] at h
    cases bc with
    | true => cases h; exact ⟨rfl, rfl⟩
    | false => cases h; exact ⟨rfl, rfl⟩

/-- A successful `update_vertex` never changes the ring or the point array. -/
theorem update_vertex_ring {p : Polygon} {v : ℕ} {p' : Polygon}
    (h : p.update_vertex v = .ok p') :
    p'.vertex_list = p.vertex_list ∧ p'.vertices = p.vertices := by
  unfold Polygon.update_vertex at h
  cases hc : p.update_vertex_convexity v with
  | error e => rw [hc] at h; cases h
  | ok bp =>
    rw [hc] at h
    obtain ⟨b, p1⟩ := bp
    cases b with
    | false => cases h; exact update_vertex_convexity_ring hc
    | true =>
      simp only at h
      cases he : p1.update_vertex_earness v with
      | error e => rw [he] at h; cases h
      | ok bp2 =>
        rw [he] at h
        obtain ⟨b2, p2⟩ := bp2
        cases h
        obtain ⟨h1, h2⟩ := update_vertex_convexity_ring hc
        obtain ⟨h3, h4⟩ := update_vertex_earness_ring he
        exact ⟨h3.trans h1, h4.trans h2⟩

/-- A successful `build_fake_triangle_at` implies the vertex is in the ring. -/
theorem build_fake_mem {p : Polygon} {v : ℕ} {t : Triangle ℕ}
    (h : p.build_fake_triangle_at v = .ok t) : v ∈ p.vertex_list := by
  unfold Polygon.build_fake_triangle_at build_triangle_at_element at h
  by_cases hm : v ∈ p.vertex_list
  · exact hm
  · rw [if_neg hm] at h; cases h

/-- A successful `remove_vertex` erases exactly the removed vertex from the
ring, keeps the point array, and the vertex was present. -/
theorem remove_vertex_ring {p : Polygon} {v : ℕ} {t : Triangle ℕ} {p' : Polygon}
    (h : p.remove_vertex v = .ok (t, p')) :
    p'.vertex_list = p.vertex_list.erase v ∧ p'.vertices = p.vertices ∧ v ∈ p.vertex_list := by
  unfold Polygon.remove_vertex at h
  cases hb : p.build_fake_triangle_at v with
  | error e => rw [hb] at h; cases h
  | ok ABC =>
    rw [hb] at h
    simp only at h
    cases h2 : Polygon.update_vertex _ ABC.A with
    | error e => rw [h2] at h; cases h
    | ok p2 =>
      rw [h2] at h
      simp only at h
      cases h3 : p2.update_vertex ABC.C with
      | error e => rw [h3] at h; cases h
      | ok p3 =>
        rw [h3] at h
        cases h
        obtain ⟨ha1, ha2⟩ := update_vertex_ring h2
        obtain ⟨hb1, hb2⟩ := update_vertex_ring h3
        refine ⟨hb1.trans (ha1.trans rfl), hb2.trans (ha2.trans rfl), build_fake_mem hb⟩

/-- A successful `remove_vertex` shrinks the ring. -/
theorem remove_vertex_size_lt {p : Polygon} {v : ℕ} {t : Triangle ℕ} {p' : Polygon}
    (h : p.remove_vertex v = .ok (t, p')) :
    p'.vertex_list.length < p.vertex_list.length := by
  obtain ⟨h1, _, h3⟩ := remove_vertex_ring h
  rw [h1]
  have := List.length_erase_add_one h3
  omega

/-- The driver loop of `triangulate`: while the ring has more than two
vertices, demand an ear, remove it and emit the harvested triangle. -/
def triangulateLoop (p : Polygon) : Except CppError (List (Triangle ℕ)) :=
  if 2 < p.vertex_list.length then
    if p.has_ear then
      match p.get_next_ear with
      | .error e => .error e
      | .ok ear_vertex =>
        match hr : p.remove_vertex ear_vertex with
        | .error e => .error e
        | .ok (ear, p') =>
          match triangulateLoop p' with
          | .error e => .error e
          | .ok ts => .ok (ear :: ts)
    else .error .nonSimple
  else .ok []
termination_by p.vertex_list.length
decreasing_by exact remove_vertex_size_lt hr

/-- `triangulate` from `triangulation.cpp`: construct the polygon state and
run the driver loop. -/
def triangulate (vs : List Vec2) : Except CppError (List (Triangle ℕ)) :=
  match mkPolygon vs with
  | .error e => .error e
  | .ok p => triangulateLoop p

/-! ### Basic facts about the geometric predicates -/

/-- A triangle whose last two corners coincide has zero determinant. -/
theorem detT_last_eq (X Y : Vec2) : geom.detT ⟨X, Y, Y⟩ = 0 := by
  simp only [geom.detT, geom.det]
  ring

/-- A triangle whose outer corners coincide has zero determinant. -/
theorem detT_outer_eq (X Y : Vec2) : geom.detT ⟨X, Y, X⟩ = 0 := by
  simp only [geom.detT, geom.det]
  ring

/-- A triangle with coinciding last corners never tests convex. -/
theorem is_convex_last_eq (X Y : Vec2) : geom.is_convex ⟨X, Y, Y⟩ = false := by
  simp [geom.is_convex, detT_last_eq]

/-- A triangle with coinciding last corners never tests reflex. -/
theorem is_reflex_last_eq (X Y : Vec2) : geom.is_reflex ⟨X, Y, Y⟩ = false := by
  simp [geom.is_reflex, detT_last_eq]

/-- A triangle with coinciding outer corners never tests convex. -/
theorem is_convex_outer_eq (X Y : Vec2) : geom.is_convex ⟨X, Y, X⟩ = false := by
  simp [geom.is_convex, detT_outer_eq]

/-- A triangle with coinciding outer corners never tests reflex. -/
theorem is_reflex_outer_eq (X Y : Vec2) : geom.is_reflex ⟨X, Y, X⟩ = false := by
  simp [geom.is_reflex, detT_outer_eq]

/-- Its own first corner is always contained in a triangle: two of the three
half-plane signs vanish there. -/
theorem pit_corner_A (t : Triangle Vec2) : geom.point_in_triangle t t.A = true := by
  simp only [geom.point_in_triangle, geom.sign]
  have h1 : (t.A.x - t.B.x) * (t.A.y - t.B.y) - (t.A.x - t.B.x) * (t.A.y - t.B.y) = 0 := by ring
  have h3 : (t.A.x - t.A.x) * (t.C.y - t.A.y) - (t.C.x - t.A.x) * (t.A.y - t.A.y) = 0 := by ring
  simp only [h1, h3]
  simp only [Bool.not_eq_true']
  rw [Bool.and_eq_false_iff]
  rcases lt_trichotomy ((t.A.x - t.C.x) * (t.B.y - t.C.y) - (t.B.x - t.C.x) * (t.A.y - t.C.y)) 0
    with h | h | h
  · right
    simp [not_lt.mpr (le_of_lt h), h.ne]
  · left
    simp [h]
  · left
    simp [not_lt.mpr (le_of_lt h), h.ne']

/-- Its own middle corner is always contained in a triangle. -/
theorem pit_corner_B (t : Triangle Vec2) : geom.point_in_triangle t t.B = true := by
  simp only [geom.point_in_triangle, geom.sign]
  have h1 : (t.B.x - t.B.x) * (t.A.y - t.B.y) - (t.A.x - t.B.x) * (t.B.y - t.B.y) = 0 := by ring
  have h2 : (t.B.x - t.C.x) * (t.B.y - t.C.y) - (t.B.x - t.C.x) * (t.B.y - t.C.y) = 0 := by ring
  simp only [h1, h2]
  simp only [Bool.not_eq_true']
  rw [Bool.and_eq_false_iff]
  rcases lt_trichotomy ((t.B.x - t.A.x) * (t.C.y - t.A.y) - (t.C.x - t.A.x) * (t.B.y - t.A.y)) 0
    with h | h | h
  · right
    simp [not_lt.mpr (le_of_lt h), h.ne]
  · left
    simp [h]
  · left
    simp [not_lt.mpr (le_of_lt h), h.ne']

/-- Its own last corner is always contained in a triangle. -/
theorem pit_corner_C (t : Triangle Vec2) : geom.point_in_triangle t t.C = true := by
  simp only [geom.point_in_triangle, geom.sign]
  have h2 : (t.C.x - t.C.x) * (t.B.y - t.C.y) - (t.B.x - t.C.x) * (t.C.y - t.C.y) = 0 := by ring
  have h3 : (t.C.x - t.A.x) * (t.C.y - t.A.y) - (t.C.x - t.A.x) * (t.C.y - t.A.y) = 0 := by ring
  simp only [h2, h3]
  simp only [Bool.not_eq_true']
  rw [Bool.and_eq_false_iff]
  rcases lt_trichotomy ((t.C.x - t.B.x) * (t.A.y - t.B.y) - (t.A.x - t.B.x) * (t.C.y - t.B.y)) 0
    with h | h | h
  · right
    simp [not_lt.mpr (le_of_lt h), h.ne]
  · left
    simp [h]
  · left
    simp [not_lt.mpr (le_of_lt h), h.ne']

/-! ### The point-in-triangle predicate against the spec's closed triangle -/

/-- Spec-side definition, following the words of the spec rather than the
code: "P lies inside or on the boundary of triangle T", i.e. P is a convex
combination of the three corners. -/
def InClosedTriangle (tri : Triangle Vec2) (pt : Vec2) : Prop :=
  ∃ a b c : ℚ, 0 ≤ a ∧ 0 ≤ b ∧ 0 ≤ c ∧ a + b + c = 1 ∧
    pt.x = a * tri.A.x + b * tri.B.x + c * tri.C.x ∧
    pt.y = a * tri.A.y + b * tri.B.y + c * tri.C.y

/-- The three half-plane signs sum to the triangle determinant. -/
theorem tri_sign_sum (tri : Triangle Vec2) (pt : Vec2) :
    geom.sign pt tri.A tri.B + geom.sign pt tri.B tri.C + geom.sign pt tri.C tri.A =
      geom.detT tri := by
  simp only [geom.sign, geom.detT, geom.det]
  ring

/-- Barycentric reconstruction of the x coordinate from the half-plane
signs. -/
theorem sign_bary_x (tri : Triangle Vec2) (pt : Vec2) :
    geom.detT tri * pt.x =
      geom.sign pt tri.B tri.C * tri.A.x + geom.sign pt tri.C tri.A * tri.B.x +
        geom.sign pt tri.A tri.B * tri.C.x := by
  simp only [geom.sign, geom.detT, geom.det]
  ring

/-- Barycentric reconstruction of the y coordinate from the half-plane
signs. -/
theorem sign_bary_y (tri : Triangle Vec2) (pt : Vec2) :
    geom.detT tri * pt.y =
      geom.sign pt tri.B tri.C * tri.A.y + geom.sign pt tri.C tri.A * tri.B.y +
        geom.sign pt tri.A tri.B * tri.C.y := by
  simp only [geom.sign, geom.detT, geom.det]
  ring

/-- The half-plane signs of a convex combination of the corners are the
coefficients scaled by the determinant. -/
theorem sign_of_combination (tri : Triangle Vec2) (a b c : ℚ) (hsum : a + b + c = 1) :
    geom.sign ⟨a * tri.A.x + b * tri.B.x + c * tri.C.x,
               a * tri.A.y + b * tri.B.y + c * tri.C.y⟩ tri.B tri.C = a * geom.detT tri ∧
    geom.sign ⟨a * tri.A.x + b * tri.B.x + c * tri.C.x,
               a * tri.A.y + b * tri.B.y + c * tri.C.y⟩ tri.C tri.A = b * geom.detT tri ∧
    geom.sign ⟨a * tri.A.x + b * tri.B.x + c * tri.C.x,
               a * tri.A.y + b * tri.B.y + c * tri.C.y⟩ tri.A tri.B = c * geom.detT tri := by
  have ha : a = 1 - b - c := by linarith
  subst ha
  refine ⟨?_, ?_, ?_⟩ <;> (simp only [geom.sign, geom.detT, geom.det]; ring)

/-- Unfolding of the containment test: the point passes exactly when the
three half-plane signs are all nonnegative or all nonpositive. -/
theorem pit_true_iff (tri : Triangle Vec2) (pt : Vec2) :
    geom.point_in_triangle tri pt = true ↔
      (0 ≤ geom.sign pt tri.A tri.B ∧ 0 ≤ geom.sign pt tri.B tri.C ∧
        0 ≤ geom.sign pt tri.C tri.A) ∨
      (geom.sign pt tri.A tri.B ≤ 0 ∧ geom.sign pt tri.B tri.C ≤ 0 ∧
        geom.sign pt tri.C tri.A ≤ 0) := by
  unfold geom.point_in_triangle
  simp only [Bool.not_eq_true', Bool.and_eq_false_iff, Bool.or_eq_false_iff,
    decide_eq_false_iff_not, not_lt, gt_iff_lt]
  tauto

/-- For a nondegenerate triangle the containment test of the code agrees
exactly with membership in the closed triangle (convex hull of the three
corners). -/
theorem point_in_triangle_correct (tri : Triangle Vec2) (pt : Vec2)
    (hD : geom.detT tri ≠ 0) :
    geom.point_in_triangle tri pt = true ↔ InClosedTriangle tri pt := by
  have hsum := tri_sign_sum tri pt
  have hbx := sign_bary_x tri pt
  have hby := sign_bary_y tri pt
  rw [pit_true_iff]
  constructor
  · intro h
    rcases lt_or_gt_of_ne hD with hDneg | hDpos
    · have hall : geom.sign pt tri.A tri.B ≤ 0 ∧ geom.sign pt tri.B tri.C ≤ 0 ∧
          geom.sign pt tri.C tri.A ≤ 0 := by
        rcases h with ⟨h1, h2, h3⟩ | h
        · exfalso; linarith
        · exact h
      obtain ⟨h1, h2, h3⟩ := hall
      refine ⟨geom.sign pt tri.B tri.C / geom.detT tri,
              geom.sign pt tri.C tri.A / geom.detT tri,
              geom.sign pt tri.A tri.B / geom.detT tri, ?_, ?_, ?_, ?_, ?_, ?_⟩
      · rw [div_nonneg_iff]; right; exact ⟨h2, hDneg.le⟩
      · rw [div_nonneg_iff]; right; exact ⟨h3, hDneg.le⟩
      · rw [div_nonneg_iff]; right; exact ⟨h1, hDneg.le⟩
      · rw [div_add_div_same, div_add_div_same, div_eq_one_iff_eq hD]; linarith
      · rw [div_mul_eq_mul_div, div_mul_eq_mul_div, div_mul_eq_mul_div,
          div_add_div_same, div_add_div_same, eq_div_iff hD]
        linarith
      · rw [div_mul_eq_mul_div, div_mul_eq_mul_div, div_mul_eq_mul_div,
          div_add_div_same, div_add_div_same, eq_div_iff hD]
        linarith
    · have hall : 0 ≤ geom.sign pt tri.A tri.B ∧ 0 ≤ geom.sign pt tri.B tri.C ∧
          0 ≤ geom.sign pt tri.C tri.A := by
        rcases h with h | ⟨h1, h2, h3⟩
        · exact h
        · exfalso; linarith
      obtain ⟨h1, h2, h3⟩ := hall
      refine ⟨geom.sign pt tri.B tri.C / geom.detT tri,
              geom.sign pt tri.C tri.A / geom.detT tri,
              geom.sign pt tri.A tri.B / geom.detT tri,
              div_nonneg h2 hDpos.le, div_nonneg h3 hDpos.le, div_nonneg h1 hDpos.le,
              ?_, ?_, ?_⟩
      · rw [div_add_div_same, div_add_div_same, div_eq_one_iff_eq hD]; linarith
      · rw [div_mul_eq_mul_div, div_mul_eq_mul_div, div_mul_eq_mul_div,
          div_add_div_same, div_add_div_same, eq_div_iff hD]
        linarith
      · rw [div_mul_eq_mul_div, div_mul_eq_mul_div, div_mul_eq_mul_div,
          div_add_div_same, div_add_div_same, eq_div_iff hD]
        linarith
  · rintro ⟨a, b, c, ha, hb, hc, habc, hx, hy⟩
    have hpt : pt = ⟨a * tri.A.x + b * tri.B.x + c * tri.C.x,
                     a * tri.A.y + b * tri.B.y + c * tri.C.y⟩ := by
      cases pt
      simp only [Vec2.mk.injEq]
      exact ⟨hx, hy⟩
    obtain ⟨e2, e3, e1⟩ := sign_of_combination tri a b c habc
    rw [hpt]
    rcases lt_or_gt_of_ne hD with hDneg | hDpos
    · right
      refine ⟨?_, ?_, ?_⟩
      · rw [e1]; exact mul_nonpos_iff.mpr (Or.inl ⟨hc, hDneg.le⟩)
      · rw [e2]; exact mul_nonpos_iff.mpr (Or.inl ⟨ha, hDneg.le⟩)
      · rw [e3]; exact mul_nonpos_iff.mpr (Or.inl ⟨hb, hDneg.le⟩)
    · left
      refine ⟨?_, ?_, ?_⟩
      · rw [e1]; exact mul_nonneg hc hDpos.le
      · rw [e2]; exact mul_nonneg ha hDpos.le
      · rw [e3]; exact mul_nonneg hb hDpos.le

/-! ### The sorted-list model of `std::set` -/

/-- Membership in `sInsert`. -/
theorem mem_sInsert {y x : ℕ} {l : List ℕ} : y ∈ sInsert x l ↔ y = x ∨ y ∈ l := by
  induction l with
  | nil => simp [sInsert]
  | cons z zs ih =>
    simp only [sInsert]
    by_cases h1 : x < z
    · simp [h1]
    · by_cases h2 : x = z
      · subst h2
        simp [h1]
      · simp [h1, h2, ih]
        tauto

/-- `sInsert` preserves strict sortedness. -/
theorem sInsert_sorted {x : ℕ} {l : List ℕ} (h : l.Sorted (· < ·)) :
    (sInsert x l).Sorted (· < ·) := by
  induction l with
  | nil => simp [sInsert]
  | cons z zs ih =>
    rw [List.sorted_cons] at h
    obtain ⟨hz, hzs⟩ := h
    simp only [sInsert]
    by_cases h1 : x < z
    · rw [if_pos h1, List.sorted_cons]
      refine ⟨?_, List.sorted_cons.mpr ⟨hz, hzs⟩⟩
      intro b hb
      rcases List.mem_cons.mp hb with hb | hb
      · omega
      · have := hz b hb; omega
    · by_cases h2 : x = z
      · rw [if_neg h1, if_pos h2, List.sorted_cons]
        exact ⟨hz, hzs⟩
      · rw [if_neg h1, if_neg h2, List.sorted_cons]
        refine ⟨?_, ih hzs⟩
        intro b hb
        rcases mem_sInsert.mp hb with hb | hb
        · omega
        · exact hz b hb

/-- Membership in `sErase`. -/
theorem mem_sErase {y x : ℕ} {l : List ℕ} : y ∈ sErase x l ↔ y ∈ l ∧ y ≠ x := by
  simp [sErase, List.mem_filter]

/-- `sErase` of an absent key is the identity. -/
theorem sErase_of_not_mem {x : ℕ} {l : List ℕ} (h : x ∉ l) : sErase x l = l := by
  unfold sErase
  apply List.filter_eq_self.mpr
  intro a ha
  simp only [decide_eq_true_eq]
  intro heq
  exact h (heq ▸ ha)

/-- `sErase` preserves strict sortedness. -/
theorem sErase_sorted {x : ℕ} {l : List ℕ} (h : l.Sorted (· < ·)) :
    (sErase x l).Sorted (· < ·) := h.filter _

/-! ### Positional facts about the ring lookups -/

/-- The predecessor position used by `build_triangle_at_index`. -/
def prevIdx (n i : ℕ) : ℕ := if i > 0 then i - 1 else n - 1

/-- The successor position used by `build_triangle_at_index` (for the last
position this is the position itself, not position 0). -/
def nextIdx (n i : ℕ) : ℕ := if i < n - 1 then i + 1 else n - 1

/-- Successful unfolding of `build_triangle_at_index` at an in-range
position. -/
theorem bti_ok {l : List ℕ} {i : ℕ} (h : i < l.length) :
    build_triangle_at_index l i =
      .ok ⟨l.getD (prevIdx l.length i) 0, l.getD i 0, l.getD (nextIdx l.length i) 0⟩ := by
  unfold build_triangle_at_index prevIdx nextIdx
  rw [if_neg (by omega)]

/-- `build_triangle_at_element` through a known position of the element, for
a ring without duplicates. -/
theorem bte_eq_bti {l : List ℕ} {j : ℕ} {w : ℕ} (nd : l.Nodup) (hj : j < l.length)
    (hw : l.getD j 0 = w) : build_triangle_at_element l w = build_triangle_at_index l j := by
  have hmem : w ∈ l := by
    rw [← hw, List.getD_eq_getElem l 0 hj]
    exact List.getElem_mem hj
  have hidx : l.indexOf w = j := by
    rw [← hw, List.getD_eq_getElem l 0 hj]
    exact List.indexOf_getElem nd j hj
  unfold build_triangle_at_element
  rw [if_pos hmem, hidx]

/-- In-range `getD` values are members. -/
theorem getD_mem {l : List ℕ} {j : ℕ} (h : j < l.length) : l.getD j 0 ∈ l := by
  rw [List.getD_eq_getElem l 0 h]
  exact List.getElem_mem h

/-- On a ring without duplicates, `getD` at distinct in-range positions gives
distinct elements. -/
theorem getD_inj {l : List ℕ} {i j : ℕ} (nd : l.Nodup) (hi : i < l.length)
    (hj : j < l.length) (hne : i ≠ j) : l.getD i 0 ≠ l.getD j 0 := by
  rw [List.getD_eq_getElem l 0 hi, List.getD_eq_getElem l 0 hj]
  intro h
  exact hne (nd.getElem_inj_iff.mp h)

/-- `getD` through `List.erase`: positions before the erased one are
unchanged, later ones shift down by one. -/
theorem erase_getD {l : List ℕ} {v : ℕ} (hv : v ∈ l) {j : ℕ} (hj : j + 1 < l.length) :
    (l.erase v).getD j 0 = if j < l.indexOf v then l.getD j 0 else l.getD (j + 1) 0 := by
  have hiv : l.indexOf v < l.length := List.indexOf_lt_length.mpr hv
  have herase : l.erase v = l.take (l.indexOf v) ++ l.drop (l.indexOf v + 1) := by
    rw [← List.eraseIdx_indexOf_eq_erase, List.eraseIdx_eq_take_drop_succ]
  have htl : (l.take (l.indexOf v)).length = l.indexOf v := by
    rw [List.length_take]; omega
  by_cases hlt : j < l.indexOf v
  · rw [if_pos hlt, herase]
    have hb : j < (l.take (l.indexOf v) ++ l.drop (l.indexOf v + 1)).length := by
      rw [List.length_append, htl, List.length_drop]; omega
    rw [List.getD_eq_getElem _ 0 hb, List.getD_eq_getElem l 0 (by omega : j < l.length)]
    rw [List.getElem_append_left (by omega : j < (l.take (l.indexOf v)).length)]
    simp [List.getElem_take]
  · rw [if_neg hlt, herase]
    have hb : j < (l.take (l.indexOf v) ++ l.drop (l.indexOf v + 1)).length := by
      rw [List.length_append, htl, List.length_drop]; omega
    rw [List.getD_eq_getElem _ 0 hb, List.getD_eq_getElem l 0 (by omega : j + 1 < l.length)]
    rw [List.getElem_append_right (by omega : (l.take (l.indexOf v)).length ≤ j)]
    have hd : j - (l.take (l.indexOf v)).length < (l.drop (l.indexOf v + 1)).length := by
      rw [htl, List.length_drop]; omega
    rw [List.getElem_drop]
    congr 1
    rw [htl]
    omega

/-- Erasing a vertex that is not at the last ring position, nor one of the two
positional neighbours of a vertex `w`, leaves the looked-up triangle of `w`
unchanged. -/
theorem tri_stable {l : List ℕ} {v w : ℕ} (nd : l.Nodup) (hv : v ∈ l)
    (hvlast : l.indexOf v + 1 < l.length)
    {jw : ℕ} (hjw : jw < l.length) (hw : l.getD jw 0 = w)
    (hwv : w ≠ v)
    (hwA : jw ≠ prevIdx l.length (l.indexOf v))
    (hwC : jw ≠ l.indexOf v + 1) :
    build_triangle_at_element (l.erase v) w = build_triangle_at_element l w := by
  have hiv : l.indexOf v < l.length := List.indexOf_lt_length.mpr hv
  have hvval : l.getD (l.indexOf v) 0 = v := by
    rw [List.getD_eq_getElem l 0 hiv]
    exact List.getElem_indexOf hiv
  have hne : jw ≠ l.indexOf v := by
    intro h
    exact hwv (by rw [← hw, h, hvval])
  have hlen : (l.erase v).length = l.length - 1 := by
    have := List.length_erase_add_one hv
    omega
  have hnd' : (l.erase v).Nodup := nd.erase v
  -- the new position of w
  by_cases hlt : jw < l.indexOf v
  · -- jw is unshifted; since jw ≠ prevIdx and jw < iv we get iv ≥ 2 side facts
    have hA : l.indexOf v > 0 := by omega
    have hAval : jw ≠ l.indexOf v - 1 := by
      intro h
      apply hwA
      unfold prevIdx
      rw [if_pos hA]
      exact h
    have hj' : jw < (l.erase v).length := by omega
    have hw' : (l.erase v).getD jw 0 = w := by
      rw [erase_getD hv (by omega)]
      rw [if_pos hlt]
      exact hw
    rw [bte_eq_bti hnd' hj' hw', bte_eq_bti nd hjw hw, bti_ok hj', bti_ok hjw]
    have eB : (l.erase v).getD jw 0 = l.getD jw 0 := by rw [hw', hw]
    have eA : (l.erase v).getD (prevIdx (l.erase v).length jw) 0 =
        l.getD (prevIdx l.length jw) 0 := by
      unfold prevIdx
      by_cases h0 : jw > 0
      · rw [if_pos h0, if_pos h0]
        rw [erase_getD hv (by omega), if_pos (by omega)]
      · rw [if_neg h0, if_neg h0, hlen]
        rw [erase_getD hv (by omega), if_neg (by omega)]
        congr 1
        omega
    have eC : (l.erase v).getD (nextIdx (l.erase v).length jw) 0 =
        l.getD (nextIdx l.length jw) 0 := by
      unfold nextIdx
      have hsmall : jw < (l.erase v).length - 1 := by omega
      rw [if_pos hsmall, if_pos (by omega : jw < l.length - 1)]
      rw [erase_getD hv (by omega), if_pos (by omega)]
    rw [eA, eB, eC]
  · -- jw > iv, so jw ≥ iv + 2 and the new position is jw - 1
    have hge : l.indexOf v + 2 ≤ jw := by omega
    have hj' : jw - 1 < (l.erase v).length := by omega
    have hw' : (l.erase v).getD (jw - 1) 0 = w := by
      rw [erase_getD hv (by omega), if_neg (by omega)]
      rw [show jw - 1 + 1 = jw by omega]
      exact hw
    rw [bte_eq_bti hnd' hj' hw', bte_eq_bti nd hjw hw, bti_ok hj', bti_ok hjw]
    have eB : (l.erase v).getD (jw - 1) 0 = l.getD jw 0 := by rw [hw', hw]
    have eA : (l.erase v).getD (prevIdx (l.erase v).length (jw - 1)) 0 =
        l.getD (prevIdx l.length jw) 0 := by
      unfold prevIdx
      rw [if_pos (by omega : jw - 1 > 0), if_pos (by omega : jw > 0)]
      rw [erase_getD hv (by omega), if_neg (by omega)]
      congr 1
      omega
    have eC : (l.erase v).getD (nextIdx (l.erase v).length (jw - 1)) 0 =
        l.getD (nextIdx l.length jw) 0 := by
      unfold nextIdx
      by_cases hsmall : jw < l.length - 1
      · rw [if_pos (by omega : jw - 1 < (l.erase v).length - 1), if_pos hsmall]
        rw [erase_getD hv (by omega), if_neg (by omega)]
        congr 1
        omega
      · rw [if_neg (by omega : ¬ jw - 1 < (l.erase v).length - 1), if_neg hsmall, hlen]
        rw [erase_getD hv (by omega), if_neg (by omega)]
        congr 1
        omega
    rw [eA, eB, eC]

/-- The predecessor position is in range. -/
theorem prevIdx_lt {n i : ℕ} (h : i < n) : prevIdx n i < n := by
  unfold prevIdx
  split <;> omega

/-- The successor position is in range. -/
theorem nextIdx_lt {n i : ℕ} (h : i < n) : nextIdx n i < n := by
  unfold nextIdx
  split <;> omega

/-- `build_real_triangle_at` only reads the ring and the point array. -/
theorem build_real_congr {p q : Polygon} (h1 : p.vertex_list = q.vertex_list)
    (h2 : p.vertices = q.vertices) (w : ℕ) :
    p.build_real_triangle_at w = q.build_real_triangle_at w := by
  unfold Polygon.build_real_triangle_at Polygon.build_fake_triangle_at Polygon.make_real
  unfold make_triangle_real
  rw [h1, h2]

/-- `earScan` only reads the reflex set and the point array. -/
theorem earScan_congr {p q : Polygon} (h1 : p.reflex_list = q.reflex_list)
    (h2 : p.vertices = q.vertices) (t : Triangle Vec2) :
    p.earScan t = q.earScan t := by
  unfold Polygon.earScan
  rw [h1, h2]

/-- Full unfolding of a successful real-triangle lookup: the three corners are
the points of the positional neighbours. -/
theorem build_real_spec {p : Polygon} {w j : ℕ} (nd : p.vertex_list.Nodup)
    (hj : j < p.vertex_list.length) (hw : p.vertex_list.getD j 0 = w)
    (hsub : ∀ u ∈ p.vertex_list, u < p.vertices.length) :
    p.build_real_triangle_at w =
      .ok ⟨p.vertices.getD (p.vertex_list.getD (prevIdx p.vertex_list.length j) 0) ⟨0, 0⟩,
           p.vertices.getD w ⟨0, 0⟩,
           p.vertices.getD (p.vertex_list.getD (nextIdx p.vertex_list.length j) 0) ⟨0, 0⟩⟩ := by
  unfold Polygon.build_real_triangle_at Polygon.build_fake_triangle_at
  rw [bte_eq_bti nd hj hw, bti_ok hj]
  simp only
  unfold Polygon.make_real make_triangle_real
  rw [if_pos ⟨hsub _ (getD_mem (prevIdx_lt hj)), hsub _ (hw ▸ getD_mem hj),
      hsub _ (getD_mem (nextIdx_lt hj))⟩]
  rw [hw]

/-- A successful real-triangle lookup exists for every ring member whenever
all ring members index into the point array. -/
theorem build_real_ok {p : Polygon} {w : ℕ} (nd : p.vertex_list.Nodup)
    (hw : w ∈ p.vertex_list)
    (hsub : ∀ u ∈ p.vertex_list, u < p.vertices.length) :
    ∃ t, p.build_real_triangle_at w = .ok t := by
  have hj : p.vertex_list.indexOf w < p.vertex_list.length := List.indexOf_lt_length.mpr hw
  refine ⟨_, build_real_spec nd hj ?_ hsub⟩
  rw [List.getD_eq_getElem _ 0 hj]
  exact List.getElem_indexOf hj

/-- A failing real-triangle lookup at a ring member cannot happen when all
ring members index into the point array; contrapositive of `build_real_ok`
in rewrite-friendly form. -/
theorem is_ear_eq {p : Polygon} {x : ℕ} {t : Triangle Vec2}
    (hb : p.build_real_triangle_at x = .ok t) :
    p.is_ear x false = .ok (p.earScan t) := by
  unfold Polygon.is_ear
  rw [if_neg (by simp), hb]

/-- Cached convexity hit. -/
theorem is_convex_of_mem {p : Polygon} {x : ℕ} (h : x ∈ p.convex_list) :
    p.is_convex x = .ok true := by
  unfold Polygon.is_convex
  rw [if_pos h]

/-- Convexity on cache miss is the geometric test of the current triangle. -/
theorem is_convex_of_not_mem {p : Polygon} {x : ℕ} (h : x ∉ p.convex_list)
    {t : Triangle Vec2} (hb : p.build_real_triangle_at x = .ok t) :
    p.is_convex x = .ok (geom.is_convex t) := by
  unfold Polygon.is_convex
  rw [if_neg h, hb]

/-- A `false` answer from `is_convex` means a cache miss and a geometrically
non-convex current triangle. -/
theorem is_convex_false {p : Polygon} {x : ℕ} (h : p.is_convex x = .ok false) :
    x ∉ p.convex_list ∧ ∃ t, p.build_real_triangle_at x = .ok t ∧ geom.is_convex t = false := by
  unfold Polygon.is_convex at h
  by_cases hm : x ∈ p.convex_list
  · rw [if_pos hm] at h; cases h
  · rw [if_neg hm] at h
    refine ⟨hm, ?_⟩
    cases hb : p.build_real_triangle_at x with
    | error e => rw [hb] at h; cases h
    | ok t =>
      rw [hb] at h
      exact ⟨t, rfl, Except.ok.inj h⟩

/-- Frame property of `update_vertex`: only the updated vertex's memberships
in the three classification sets can change. -/
theorem update_vertex_frame {q : Polygon} {x : ℕ} {q' : Polygon}
    (h : q.update_vertex x = .ok q') :
    q'.vertices = q.vertices ∧ q'.vertex_list = q.vertex_list ∧
    ∀ w, w ≠ x → ((w ∈ q'.convex_list ↔ w ∈ q.convex_list) ∧
                  (w ∈ q'.reflex_list ↔ w ∈ q.reflex_list) ∧
                  (w ∈ q'.ear_list ↔ w ∈ q.ear_list)) := by
  unfold Polygon.update_vertex at h
  cases hc : q.update_vertex_convexity x with
  | error e => rw [hc] at h; cases h
  | ok bp =>
    rw [hc] at h
    obtain ⟨b, p1⟩ := bp
    unfold Polygon.update_vertex_convexity at hc
    cases hic : q.is_convex x with
    | error e => rw [hic] at hc; cases hc
    | ok bc =>
      rw [hic] at hc
      cases bc with
      | false =>
        simp only at hc
        obtain ⟨hb, hp1⟩ := Prod.mk.injEq .. ▸ Except.ok.inj hc
        subst hb
        simp only at h
        cases h
        rw [← hp1]
        exact ⟨rfl, rfl, fun w hw => ⟨Iff.rfl, Iff.rfl, Iff.rfl⟩⟩
      | true =>
        simp only at hc
        obtain ⟨hb, hp1⟩ := Prod.mk.injEq .. ▸ Except.ok.inj hc
        subst hb
        simp only at h
        cases he : p1.update_vertex_earness x with
        | error e => rw [he] at h; cases h
        | ok bp2 =>
          rw [he] at h
          obtain ⟨b2, p2⟩ := bp2
          simp only at h
          cases h
          unfold Polygon.update_vertex_earness at he
          cases hie : p1.is_ear x false with
          | error e => rw [hie] at he; cases he
          | ok be =>
            rw [hie] at he
            have hp1c : p1.convex_list = sInsert x q.convex_list := by rw [← hp1]
            have hp1r : p1.reflex_list = sErase x q.reflex_list := by rw [← hp1]
            have hp1e : p1.ear_list = q.ear_list := by rw [← hp1]
            have hp1v : p1.vertices = q.vertices := by rw [← hp1]
            have hp1l : p1.vertex_list = q.vertex_list := by rw [← hp1]
            cases be with
            | true =>
              simp only at he
              obtain ⟨hb2, hp2⟩ := Prod.mk.injEq .. ▸ Except.ok.inj he
              rw [← hp2]
              refine ⟨hp1v, hp1l, fun w hw => ⟨?_, ?_, ?_⟩⟩
              · simp only [hp1c, mem_sInsert]
                constructor
                · rintro (h | h); · exact absurd h hw
                  exact h
                · exact fun h => Or.inr h
              · simp only [hp1r, mem_sErase]
                constructor
                · exact fun h => h.1
                · exact fun h => ⟨h, hw⟩
              · simp only [hp1e, mem_sInsert]
                constructor
                · rintro (h | h); · exact absurd h hw
                  exact h
                · exact fun h => Or.inr h
            | false =>
              simp only at he
              obtain ⟨hb2, hp2⟩ := Prod.mk.injEq .. ▸ Except.ok.inj he
              rw [← hp2]
              refine ⟨hp1v, hp1l, fun w hw => ⟨?_, ?_, ?_⟩⟩
              · simp only [hp1c, mem_sInsert]
                constructor
                · rintro (h | h); · exact absurd h hw
                  exact h
                · exact fun h => Or.inr h
              · simp only [hp1r, mem_sErase]
                constructor
                · exact fun h => h.1
                · exact fun h => ⟨h, hw⟩
              · simp only [hp1e, mem_sErase]
                constructor
                · exact fun h => h.1
                · exact fun h => ⟨h, hw⟩

/-- Inversion of `is_ear` without pre-test: a successful answer comes with a
successful triangle lookup, and equals the reflex scan. -/
theorem is_ear_inv {p : Polygon} {x : ℕ} {be : Bool} (h : p.is_ear x false = .ok be) :
    ∃ t, p.build_real_triangle_at x = .ok t ∧ be = p.earScan t := by
  unfold Polygon.is_ear at h
  rw [if_neg (by simp)] at h
  cases hb : p.build_real_triangle_at x with
  | error e => rw [hb] at h; cases h
  | ok t =>
    rw [hb] at h
    exact ⟨t, rfl, (Except.ok.inj h).symm⟩

/-- Inversion of a `true` answer from `is_convex`: a cache hit or a convex
current triangle. -/
theorem is_convex_true_inv {p : Polygon} {x : ℕ} (h : p.is_convex x = .ok true) :
    x ∈ p.convex_list ∨ ∃ t, p.build_real_triangle_at x = .ok t ∧ geom.is_convex t = true := by
  unfold Polygon.is_convex at h
  by_cases hm : x ∈ p.convex_list
  · exact Or.inl hm
  · rw [if_neg hm] at h
    right
    cases hb : p.build_real_triangle_at x with
    | error e => rw [hb] at h; cases h
    | ok t =>
      rw [hb] at h
      exact ⟨t, rfl, Except.ok.inj h⟩

/-- Behaviour of a successful `update_vertex` on a vertex outside the reflex
set: the reflex set is untouched; the vertex either counts as convex (cache
hit or fresh test) and its ear membership becomes the fresh reflex scan of its
current triangle, or it does not and nothing changes. -/
theorem update_vertex_spec {q : Polygon} {x : ℕ} {q' : Polygon}
    (h : q.update_vertex x = .ok q') (hnr : x ∉ q.reflex_list) :
    q'.reflex_list = q.reflex_list ∧
    ∃ t, q.build_real_triangle_at x = .ok t ∧
      (((x ∈ q.convex_list ∨ geom.is_convex t = true) ∧ x ∈ q'.convex_list ∧
          (x ∈ q'.ear_list ↔ q.earScan t = true)) ∨
       (x ∉ q.convex_list ∧ geom.is_convex t = false ∧ x ∉ q'.convex_list ∧
          (x ∈ q'.ear_list ↔ x ∈ q.ear_list))) := by
  unfold Polygon.update_vertex at h
  cases hc : q.update_vertex_convexity x with
  | error e => rw [hc] at h; cases h
  | ok bp =>
    rw [hc] at h
    obtain ⟨b, p1⟩ := bp
    unfold Polygon.update_vertex_convexity at hc
    cases hic : q.is_convex x with
    | error e => rw [hic] at hc; cases hc
    | ok bc =>
      rw [hic] at hc
      cases bc with
      | false =>
        simp only at hc
        obtain ⟨hb, hp1⟩ := Prod.mk.injEq .. ▸ Except.ok.inj hc
        subst hb
        simp only at h
        cases h
        obtain ⟨hm, t, hbt, hgeo⟩ := is_convex_false hic
        rw [← hp1]
        exact ⟨rfl, t, hbt, Or.inr ⟨hm, hgeo, hm, Iff.rfl⟩⟩
      | true =>
        simp only at hc
        obtain ⟨hb, hp1⟩ := Prod.mk.injEq .. ▸ Except.ok.inj hc
        subst hb
        simp only at h
        cases he : p1.update_vertex_earness x with
        | error e => rw [he] at h; cases h
        | ok bp2 =>
          rw [he] at h
          obtain ⟨b2, p2⟩ := bp2
          simp only at h
          cases h
          have hp1c : p1.convex_list = sInsert x q.convex_list := by rw [← hp1]
          have hp1r : p1.reflex_list = q.reflex_list := by
            rw [← hp1]
            exact sErase_of_not_mem hnr
          have hp1e : p1.ear_list = q.ear_list := by rw [← hp1]
          have hp1v : p1.vertices = q.vertices := by rw [← hp1]
          have hp1l : p1.vertex_list = q.vertex_list := by rw [← hp1]
          unfold Polygon.update_vertex_earness at he
          cases hie : p1.is_ear x false with
          | error e => rw [hie] at he; cases he
          | ok be =>
            rw [hie] at he
            obtain ⟨t, hbt1, hbe⟩ := is_ear_inv hie
            have hbt : q.build_real_triangle_at x = .ok t := by
              rw [← build_real_congr hp1l hp1v x]
              exact hbt1
            have hscan : p1.earScan t = q.earScan t := earScan_congr hp1r hp1v t
            have hcvx : x ∈ q.convex_list ∨ geom.is_convex t = true := by
              rcases is_convex_true_inv hic with hm | ⟨t2, hbt2, hg2⟩
              · exact Or.inl hm
              · right
                rw [hbt] at hbt2
                rw [Except.ok.inj hbt2]
                exact hg2
            cases be with
            | true =>
              simp only at he
              obtain ⟨hb2, hp2⟩ := Prod.mk.injEq .. ▸ Except.ok.inj he
              rw [← hp2]
              refine ⟨hp1r, t, hbt, Or.inl ⟨hcvx, ?_, ?_⟩⟩
              · simp only [hp1c, mem_sInsert]
                exact Or.inl trivial
              · simp only [mem_sInsert]
                constructor
                · intro _
                  rw [← hscan, ← hbe]
                · intro _
                  exact Or.inl trivial
            | false =>
              simp only at he
              obtain ⟨hb2, hp2⟩ := Prod.mk.injEq .. ▸ Except.ok.inj he
              rw [← hp2]
              refine ⟨hp1r, t, hbt, Or.inl ⟨hcvx, ?_, ?_⟩⟩
              · simp only [hp1c, mem_sInsert]
                exact Or.inl trivial
              · simp only [mem_sErase]
                constructor
                · intro hx
                  exact absurd rfl hx.2
                · intro hx
                  rw [← hscan, ← hbe] at hx
                  cases hx

/-- A real-triangle lookup at a vertex outside the ring fails. -/
theorem build_real_not_mem {p : Polygon} {x : ℕ} (h : x ∉ p.vertex_list) :
    p.build_real_triangle_at x = .error .elementNotFound := by
  unfold Polygon.build_real_triangle_at Polygon.build_fake_triangle_at build_triangle_at_element
  rw [if_neg h]

/-- A successful `update_vertex` always carries a successful triangle lookup
at the updated vertex (either the convexity miss or the fresh ear test built
it). -/
theorem update_vertex_build_ok {q : Polygon} {x : ℕ} {q' : Polygon}
    (h : q.update_vertex x = .ok q') :
    ∃ t, q.build_real_triangle_at x = .ok t := by
  unfold Polygon.update_vertex at h
  cases hc : q.update_vertex_convexity x with
  | error e => rw [hc] at h; cases h
  | ok bp =>
    rw [hc] at h
    obtain ⟨b, p1⟩ := bp
    have hring := update_vertex_convexity_ring hc
    unfold Polygon.update_vertex_convexity at hc
    cases hic : q.is_convex x with
    | error e => rw [hic] at hc; cases hc
    | ok bc =>
      rw [hic] at hc
      cases bc with
      | false =>
        obtain ⟨_, t, hbt, _⟩ := is_convex_false hic
        exact ⟨t, hbt⟩
      | true =>
        simp only at hc
        obtain ⟨hb, hp1⟩ := Prod.mk.injEq .. ▸ Except.ok.inj hc
        subst hb
        simp only at h
        cases he : p1.update_vertex_earness x with
        | error e => rw [he] at h; cases h
        | ok bp2 =>
          unfold Polygon.update_vertex_earness at he
          cases hie : p1.is_ear x false with
          | error e => rw [hie] at he; cases he
          | ok be =>
            obtain ⟨t, hbt1, _⟩ := is_ear_inv hie
            refine ⟨t, ?_⟩
            rw [← build_real_congr hring.1 hring.2 x]
            exact hbt1

/-- Structural inversion of a successful `remove_vertex`. -/
theorem remove_vertex_inv {p : Polygon} {v : ℕ} {t : Triangle ℕ} {p' : Polygon}
    (h : p.remove_vertex v = .ok (t, p')) :
    ∃ p2 : Polygon,
      p.build_fake_triangle_at v = .ok t ∧
      Polygon.update_vertex ⟨p.vertices, p.vertex_list.erase v, sErase v p.convex_list,
        sErase v p.reflex_list, sErase v p.ear_list⟩ t.A = .ok p2 ∧
      p2.update_vertex t.C = .ok p' := by
  unfold Polygon.remove_vertex at h
  cases hb : p.build_fake_triangle_at v with
  | error e => rw [hb] at h; cases h
  | ok ABC =>
    rw [hb] at h
    simp only at h
    cases h2 : Polygon.update_vertex _ ABC.A with
    | error e => rw [h2] at h; cases h
    | ok p2 =>
      rw [h2] at h
      simp only at h
      cases h3 : p2.update_vertex ABC.C with
      | error e => rw [h3] at h; cases h
      | ok p3 =>
        rw [h3] at h
        obtain ⟨ht, hp⟩ := Prod.mk.injEq .. ▸ Except.ok.inj h
        subst ht
        exact ⟨p2, rfl, h2, hp ▸ h3⟩

/-- A successful removal never happens at the last ring position: there the
captured "successor" is the vertex itself, and its post-deletion update
fails. -/
theorem remove_vertex_not_last {p : Polygon} {v : ℕ} {t : Triangle ℕ} {p' : Polygon}
    (nd : p.vertex_list.Nodup) (h : p.remove_vertex v = .ok (t, p')) :
    p.vertex_list.indexOf v + 1 < p.vertex_list.length := by
  obtain ⟨p2, hb, hA, hC⟩ := remove_vertex_inv h
  have hmem : v ∈ p.vertex_list := build_fake_mem hb
  have hiv : p.vertex_list.indexOf v < p.vertex_list.length := List.indexOf_lt_length.mpr hmem
  by_contra hcon
  have hlast : p.vertex_list.indexOf v = p.vertex_list.length - 1 := by omega
  have hvval : p.vertex_list.getD (p.vertex_list.indexOf v) 0 = v := by
    rw [List.getD_eq_getElem _ 0 hiv]
    exact List.getElem_indexOf hiv
  have hC_eq : t.C = v := by
    unfold Polygon.build_fake_triangle_at at hb
    rw [bte_eq_bti nd hiv hvval, bti_ok hiv] at hb
    have := Except.ok.inj hb
    rw [← this]
    simp only
    unfold nextIdx
    rw [if_neg (by omega), ← hlast]
    exact hvval
  obtain ⟨tc, hbc⟩ := update_vertex_build_ok hC
  have hring2 := update_vertex_ring hA
  have hnotmem : v ∉ p2.vertex_list := by
    rw [hring2.1]
    simp only
    exact nd.not_mem_erase
  rw [hC_eq, build_real_not_mem hnotmem] at hbc
  cases hbc

/-- Positional characterisation of the triangle captured by a successful
`remove_vertex`: middle corner the removed vertex, outer corners its
positional neighbours (cyclic predecessor, immediate successor). -/
theorem remove_vertex_tri {p : Polygon} {v : ℕ} {t : Triangle ℕ} {p' : Polygon}
    (nd : p.vertex_list.Nodup) (h : p.remove_vertex v = .ok (t, p')) :
    v ∈ p.vertex_list ∧ p.vertex_list.indexOf v + 1 < p.vertex_list.length ∧
    t.A = p.vertex_list.getD (prevIdx p.vertex_list.length (p.vertex_list.indexOf v)) 0 ∧
    t.B = v ∧
    t.C = p.vertex_list.getD (p.vertex_list.indexOf v + 1) 0 := by
  have hnl := remove_vertex_not_last nd h
  obtain ⟨p2, hb, hA, hC⟩ := remove_vertex_inv h
  have hmem : v ∈ p.vertex_list := build_fake_mem hb
  have hiv : p.vertex_list.indexOf v < p.vertex_list.length := List.indexOf_lt_length.mpr hmem
  have hvval : p.vertex_list.getD (p.vertex_list.indexOf v) 0 = v := by
    rw [List.getD_eq_getElem _ 0 hiv]
    exact List.getElem_indexOf hiv
  unfold Polygon.build_fake_triangle_at at hb
  rw [bte_eq_bti nd hiv hvval, bti_ok hiv] at hb
  have ht := (Except.ok.inj hb).symm
  refine ⟨hmem, hnl, ?_, ?_, ?_⟩
  · rw [ht]
  · rw [ht]
    exact hvval
  · rw [ht]
    simp only
    unfold nextIdx
    rw [if_pos (by omega)]

/-- The reflex scan as a proposition. -/
def ScanClear (p : Polygon) (t : Triangle Vec2) : Prop :=
  ∀ r ∈ p.reflex_list, geom.point_in_triangle t (p.vertices.getD r ⟨0, 0⟩) = false

/-- The Boolean scan agrees with the propositional one. -/
theorem earScan_iff {p : Polygon} {t : Triangle Vec2} :
    p.earScan t = true ↔ ScanClear p t := by
  unfold Polygon.earScan ScanClear
  simp [List.any_eq_true]

/-- `ScanClear` only reads the reflex set and the point array. -/
theorem scanClear_congr {p q : Polygon} (h1 : p.reflex_list = q.reflex_list)
    (h2 : p.vertices = q.vertices) (t : Triangle Vec2) :
    ScanClear p t ↔ ScanClear q t := by
  unfold ScanClear
  rw [h1, h2]

/-- Position and value of the first occurrence of a member. -/
theorem indexOf_getD_self {l : List ℕ} {w : ℕ} (h : w ∈ l) :
    l.getD (l.indexOf w) 0 = w ∧ l.indexOf w < l.length := by
  have hl : l.indexOf w < l.length := List.indexOf_lt_length.mpr h
  refine ⟨?_, hl⟩
  rw [List.getD_eq_getElem _ 0 hl]
  exact List.getElem_indexOf hl

/-- The real triangle looked up at the vertex in the last ring position is
degenerate: the code reuses the last position for the successor, so the
middle and last corners coincide. -/
theorem build_last_degenerate {p : Polygon} (nd : p.vertex_list.Nodup)
    (hsub : ∀ u ∈ p.vertex_list, u < p.vertices.length)
    {j w : ℕ} (hj : j + 1 = p.vertex_list.length) (hw : p.vertex_list.getD j 0 = w) :
    p.build_real_triangle_at w =
      .ok ⟨p.vertices.getD (p.vertex_list.getD (prevIdx p.vertex_list.length j) 0) ⟨0, 0⟩,
           p.vertices.getD w ⟨0, 0⟩, p.vertices.getD w ⟨0, 0⟩⟩ := by
  have hjlt : j < p.vertex_list.length := by omega
  rw [build_real_spec nd hjlt hw hsub]
  have hnext : nextIdx p.vertex_list.length j = j := by
    unfold nextIdx
    rw [if_neg (by omega)]
    omega
  rw [hnext, hw]

/-- A successful `update_vertex` keeps the ear set strictly sorted. -/
theorem update_vertex_ear_sorted {q : Polygon} {x : ℕ} {q' : Polygon}
    (h : q.update_vertex x = .ok q') (hs : q.ear_list.Sorted (· < ·)) :
    q'.ear_list.Sorted (· < ·) := by
  unfold Polygon.update_vertex at h
  cases hc : q.update_vertex_convexity x with
  | error e => rw [hc] at h; cases h
  | ok bp =>
    rw [hc] at h
    obtain ⟨b, p1⟩ := bp
    have hp1e : p1.ear_list = q.ear_list := by
      unfold Polygon.update_vertex_convexity at hc
      cases hic : q.is_convex x with
      | error e => rw [hic] at hc; cases hc
      | ok bc =>
        rw [hic] at hc
        cases bc with
        | true =>
          simp only at hc
          obtain ⟨hb, hp1⟩ := Prod.mk.injEq .. ▸ Except.ok.inj hc
          rw [← hp1]
        | false =>
          simp only at hc
          obtain ⟨hb, hp1⟩ := Prod.mk.injEq .. ▸ Except.ok.inj hc
          rw [← hp1]
    cases b with
    | false =>
      cases h
      rw [hp1e]
      exact hs
    | true =>
      simp only at h
      cases he : p1.update_vertex_earness x with
      | error e => rw [he] at h; cases h
      | ok bp2 =>
        rw [he] at h
        obtain ⟨b2, p2⟩ := bp2
        simp only at h
        cases h
        unfold Polygon.update_vertex_earness at he
        cases hie : p1.is_ear x false with
        | error e => rw [hie] at he; cases he
        | ok be =>
          rw [hie] at he
          cases be with
          | true =>
            simp only at he
            obtain ⟨hb2, hp2⟩ := Prod.mk.injEq .. ▸ Except.ok.inj he
            rw [← hp2]
            simp only
            exact sInsert_sorted (hp1e ▸ hs)
          | false =>
            simp only at he
            obtain ⟨hb2, hp2⟩ := Prod.mk.injEq .. ▸ Except.ok.inj he
            rw [← hp2]
            simp only
            exact sErase_sorted (hp1e ▸ hs)

/-- The inductive invariant of driver-reachable polygon states: a duplicate-
free ring of valid point indices; an ear set of ring members that is strictly
sorted and contains exactly the cached-convex vertices whose current triangle
passes the reflex scan; a reflex set of ring members whose current triangles
really test reflex; and a last ring position that is never cached convex nor
an ear. -/
structure PolyInv (p : Polygon) : Prop where
  nd : p.vertex_list.Nodup
  sub : ∀ u ∈ p.vertex_list, u < p.vertices.length
  earSub : ∀ w ∈ p.ear_list, w ∈ p.vertex_list
  earSorted : p.ear_list.Sorted (· < ·)
  earIff : ∀ w ∈ p.vertex_list, ∀ t, p.build_real_triangle_at w = .ok t →
    (w ∈ p.ear_list ↔ (w ∈ p.convex_list ∧ ScanClear p t))
  reflexOk : ∀ r ∈ p.reflex_list, r ∈ p.vertex_list ∧
    ∀ t, p.build_real_triangle_at r = .ok t → geom.is_reflex t = true
  lastNot : ∀ j, j + 1 = p.vertex_list.length →
    p.vertex_list.getD j 0 ∉ p.convex_list ∧ p.vertex_list.getD j 0 ∉ p.ear_list


/-- Removal of an ear vertex preserves the invariant; moreover the reflex set,
the point array, and the ring-after-erase are as expected. -/
theorem inv_remove {p : Polygon} {v : ℕ} {t : Triangle ℕ} {p' : Polygon}
    (hInv : PolyInv p) (hear : v ∈ p.ear_list) (hsize : 2 < p.vertex_list.length)
    (h : p.remove_vertex v = .ok (t, p')) :
    PolyInv p' ∧ p'.reflex_list = p.reflex_list ∧ p'.vertices = p.vertices ∧
    p'.vertex_list = p.vertex_list.erase v := by
  obtain ⟨hmem, hnl, htA, htB, htC⟩ := remove_vertex_tri hInv.nd h
  obtain ⟨p2, hb, hA, hC⟩ := remove_vertex_inv h
  have hiv : p.vertex_list.indexOf v < p.vertex_list.length := List.indexOf_lt_length.mpr hmem
  have hvval : p.vertex_list.getD (p.vertex_list.indexOf v) 0 = v := (indexOf_getD_self hmem).1
  have hjA : prevIdx p.vertex_list.length (p.vertex_list.indexOf v) < p.vertex_list.length :=
    prevIdx_lt hiv
  have hjAne : prevIdx p.vertex_list.length (p.vertex_list.indexOf v) ≠
      p.vertex_list.indexOf v := by
    unfold prevIdx
    split <;> omega
  have hnext : nextIdx p.vertex_list.length (p.vertex_list.indexOf v) =
      p.vertex_list.indexOf v + 1 := by
    unfold nextIdx
    rw [if_pos (by omega)]
  -- the real triangle at the removed vertex
  have htv : p.build_real_triangle_at v =
      .ok ⟨p.vertices.getD t.A ⟨0, 0⟩, p.vertices.getD v ⟨0, 0⟩,
           p.vertices.getD t.C ⟨0, 0⟩⟩ := by
    rw [build_real_spec hInv.nd hiv hvval hInv.sub, hnext, ← htA, ← htC]
  have hvear := (hInv.earIff v hmem _ htv).mp hear
  have hvconv : v ∈ p.convex_list := hvear.1
  have hvscan : ScanClear p ⟨p.vertices.getD t.A ⟨0, 0⟩, p.vertices.getD v ⟨0, 0⟩,
      p.vertices.getD t.C ⟨0, 0⟩⟩ := hvear.2
  -- no corner of the removed ear is in the reflex set
  have hAnr : t.A ∉ p.reflex_list := by
    intro hr
    have := hvscan t.A hr
    rw [pit_corner_A] at this
    cases this
  have hvnr : v ∉ p.reflex_list := by
    intro hr
    have := hvscan v hr
    rw [pit_corner_B] at this
    cases this
  have hCnr : t.C ∉ p.reflex_list := by
    intro hr
    have := hvscan t.C hr
    rw [pit_corner_C] at this
    cases this
  -- pairwise distinctness of the triangle corners
  have hAv : t.A ≠ v := by
    have hne := getD_inj hInv.nd hjA hiv hjAne
    rw [← htA, hvval] at hne
    exact hne
  have hCv : t.C ≠ v := by
    have hne := getD_inj hInv.nd (show p.vertex_list.indexOf v + 1 < p.vertex_list.length by
      omega) hiv (by omega)
    rw [← htC, hvval] at hne
    exact hne
  have hAC : t.A ≠ t.C := by
    have hne2 : prevIdx p.vertex_list.length (p.vertex_list.indexOf v) ≠
        p.vertex_list.indexOf v + 1 := by
      unfold prevIdx
      split <;> omega
    have hne := getD_inj hInv.nd hjA (show p.vertex_list.indexOf v + 1 <
      p.vertex_list.length by omega) hne2
    rw [← htA, ← htC] at hne
    exact hne
  -- convex members of the ear set of p
  have hearConv : ∀ w, w ∈ p.vertex_list → w ∈ p.ear_list → w ∈ p.convex_list := by
    intro w hwm hwe
    obtain ⟨tw, hbw⟩ := build_real_ok hInv.nd hwm hInv.sub
    exact ((hInv.earIff w hwm tw hbw).mp hwe).1
  -- the state right after the erasures
  have hr1 : sErase v p.reflex_list = p.reflex_list := sErase_of_not_mem hvnr
  have hAnr1 : t.A ∉ sErase v p.reflex_list := by
    rw [hr1]; exact hAnr
  obtain ⟨hr2, tA, hbtA, hcaseA⟩ := update_vertex_spec hA hAnr1
  have hfrA := update_vertex_frame hA
  have hp2r : p2.reflex_list = p.reflex_list := by
    rw [hr2]
    exact hr1
  have hCnr2 : t.C ∉ p2.reflex_list := by
    rw [hp2r]; exact hCnr
  obtain ⟨hr3, tC, hbtC, hcaseC⟩ := update_vertex_spec hC hCnr2
  have hfrC := update_vertex_frame hC
  -- global field plumbing
  have hp'r : p'.reflex_list = p.reflex_list := by rw [hr3, hp2r]
  have hp'v : p'.vertices = p.vertices := by rw [hfrC.1, hfrA.1]
  have hp'l : p'.vertex_list = p.vertex_list.erase v := by rw [hfrC.2.1, hfrA.2.1]
  have hp2v : p2.vertices = p.vertices := by rw [hfrA.1]
  have hp2l : p2.vertex_list = p.vertex_list.erase v := by rw [hfrA.2.1]
  have hnd' : (p.vertex_list.erase v).Nodup := hInv.nd.erase v
  have hlen' : (p.vertex_list.erase v).length = p.vertex_list.length - 1 := by
    have := List.length_erase_add_one hmem
    omega
  have hsub' : ∀ u ∈ p.vertex_list.erase v, u < p.vertices.length := fun u hu =>
    hInv.sub u (hInv.nd.mem_erase_iff.mp hu).2
  -- membership of the two neighbours in the shrunken ring
  have hAmem' : t.A ∈ p.vertex_list.erase v := by
    rw [hInv.nd.mem_erase_iff]
    exact ⟨hAv, htA ▸ getD_mem hjA⟩
  have hCmem' : t.C ∈ p.vertex_list.erase v := by
    rw [hInv.nd.mem_erase_iff]
    exact ⟨hCv, htC ▸ getD_mem (by omega)⟩
  -- triangle lookups of vertices other than the two neighbours are unchanged
  have hstable : ∀ w, w ∈ p.vertex_list.erase v → w ≠ t.A → w ≠ t.C →
      p'.build_real_triangle_at w = p.build_real_triangle_at w := by
    intro w hw hwA hwC
    obtain ⟨hwv, hwmem⟩ := hInv.nd.mem_erase_iff.mp hw
    have hjw : p.vertex_list.indexOf w < p.vertex_list.length :=
      List.indexOf_lt_length.mpr hwmem
    have hwval : p.vertex_list.getD (p.vertex_list.indexOf w) 0 = w :=
      (indexOf_getD_self hwmem).1
    have hposA : p.vertex_list.indexOf w ≠
        prevIdx p.vertex_list.length (p.vertex_list.indexOf v) := by
      intro he
      exact hwA (by rw [htA, ← he, hwval])
    have hposC : p.vertex_list.indexOf w ≠ p.vertex_list.indexOf v + 1 := by
      intro he
      exact hwC (by rw [htC, ← he, hwval])
    unfold Polygon.build_real_triangle_at Polygon.build_fake_triangle_at Polygon.make_real
    rw [hp'l, hp'v, tri_stable hInv.nd hmem hnl hjw hwval hwv hposA hposC]
  -- memberships of vertices other than the two neighbours are unchanged
  have hmems : ∀ w, w ≠ t.A → w ≠ t.C →
      ((w ∈ p'.convex_list ↔ w ∈ sErase v p.convex_list) ∧
       (w ∈ p'.ear_list ↔ w ∈ sErase v p.ear_list)) := by
    intro w hwA hwC
    obtain ⟨hc2, _, he2⟩ := hfrC.2.2 w hwC
    obtain ⟨hc1, _, he1⟩ := hfrA.2.2 w hwA
    exact ⟨hc2.trans hc1, he2.trans he1⟩
  have hscan' : ∀ tt, ScanClear p' tt ↔ ScanClear p tt := fun tt =>
    scanClear_congr hp'r hp'v tt
  -- A's memberships in p2 transported to p'
  have hAconv' : t.A ∈ p'.convex_list ↔ t.A ∈ p2.convex_list := (hfrC.2.2 t.A hAC).1
  have hAear' : t.A ∈ p'.ear_list ↔ t.A ∈ p2.ear_list := (hfrC.2.2 t.A hAC).2.2
  -- C's memberships in the erasure state transported to p2
  have hCconv2 : t.C ∈ p2.convex_list ↔ t.C ∈ sErase v p.convex_list :=
    (hfrA.2.2 t.C hAC.symm).1
  have hCear2 : t.C ∈ p2.ear_list ↔ t.C ∈ sErase v p.ear_list :=
    (hfrA.2.2 t.C hAC.symm).2.2
  -- if C was an ear of p it is cached convex in p2
  have hCearp2 : t.C ∈ p2.ear_list → t.C ∈ p2.convex_list := by
    intro hx
    have hx2 := mem_sErase.mp (hCear2.mp hx)
    have hx3 := hearConv t.C (htC ▸ getD_mem (by omega)) hx2.1
    rw [hCconv2, mem_sErase]
    exact ⟨hx3, hCv⟩
  -- likewise for A in the erasure state
  have hAearp1 : t.A ∈ sErase v p.ear_list → t.A ∈ sErase v p.convex_list := by
    intro hx
    have hx2 := mem_sErase.mp hx
    have hx3 := hearConv t.A (htA ▸ getD_mem hjA) hx2.1
    rw [mem_sErase]
    exact ⟨hx3, hAv⟩
  refine ⟨⟨?_, ?_, ?_, ?_, ?_, ?_, ?_⟩, hp'r, hp'v, hp'l⟩
  · rw [hp'l]; exact hnd'
  · rw [hp'l, hp'v]; exact hsub'
  · -- earSub
    intro w hw
    rw [hp'l]
    by_cases hwA : w = t.A
    · subst hwA
      exact hAmem'
    · by_cases hwC : w = t.C
      · subst hwC
        exact hCmem'
      · have := ((hmems w hwA hwC).2).mp hw
        rw [mem_sErase] at this
        rw [hInv.nd.mem_erase_iff]
        exact ⟨this.2, hInv.earSub w this.1⟩
  · -- earSorted
    have h1 : (sErase v p.ear_list).Sorted (· < ·) := sErase_sorted hInv.earSorted
    exact update_vertex_ear_sorted hC (update_vertex_ear_sorted hA h1)
  · -- earIff
    intro w hw tw hbw
    by_cases hwC : w = t.C
    · subst hwC
      have htw : tw = tC := by
        have heq : p'.build_real_triangle_at t.C = p2.build_real_triangle_at t.C :=
          build_real_congr (by rw [hp'l, hp2l]) (by rw [hp'v, hp2v]) t.C
        rw [heq, hbtC] at hbw
        exact (Except.ok.inj hbw).symm
      subst htw
      rcases hcaseC with ⟨hcvx, hmemc, hiff⟩ | ⟨hnc, hgeo, hnc', hiff⟩
      · rw [hiff, earScan_iff,
          scanClear_congr (show p2.reflex_list = p'.reflex_list by rw [hp2r, hp'r])
            (show p2.vertices = p'.vertices by rw [hp2v, hp'v]) tw]
        constructor
        · intro hsc
          exact ⟨hmemc, hsc⟩
        · exact fun hx => hx.2
      · constructor
        · intro hx
          exact absurd (hCearp2 (hiff.mp hx)) hnc
        · intro hx
          exact absurd hx.1 hnc'
    · by_cases hwA : w = t.A
      · subst hwA
        have htw : tw = tA := by
          have heq : p'.build_real_triangle_at t.A =
              Polygon.build_real_triangle_at ⟨p.vertices, p.vertex_list.erase v,
                sErase v p.convex_list, sErase v p.reflex_list, sErase v p.ear_list⟩ t.A :=
            build_real_congr (by rw [hp'l]) (by rw [hp'v]) t.A
          rw [heq, hbtA] at hbw
          exact (Except.ok.inj hbw).symm
        subst htw
        rcases hcaseA with ⟨hcvx, hmemc, hiff⟩ | ⟨hnc, hgeo, hnc2, hiff⟩
        · rw [hAear', hiff, earScan_iff]
          have hscb : ScanClear ⟨p.vertices, p.vertex_list.erase v, sErase v p.convex_list,
              sErase v p.reflex_list, sErase v p.ear_list⟩ tw ↔ ScanClear p' tw :=
            scanClear_congr (by rw [hp'r]; exact hr1) (by rw [hp'v]) tw
          rw [hscb]
          constructor
          · intro hsc
            refine ⟨?_, hsc⟩
            rw [hAconv']
            exact hmemc
          · exact fun hx => hx.2
        · constructor
          · intro hx
            exact absurd (hAearp1 (hiff.mp (hAear'.mp hx))) hnc
          · intro hx
            rw [hAconv'] at hx
            exact absurd hx.1 hnc2
      · have hbpw : p.build_real_triangle_at w = .ok tw := by
          rw [← hstable w (hp'l ▸ hw) hwA hwC]
          exact hbw
        obtain ⟨hwv, hwmem⟩ := hInv.nd.mem_erase_iff.mp (hp'l ▸ hw)
        have hiffp := hInv.earIff w hwmem tw hbpw
        obtain ⟨hcw, hew⟩ := hmems w hwA hwC
        rw [hew, hcw, mem_sErase, mem_sErase, hscan' tw]
        constructor
        · intro hx
          exact ⟨⟨(hiffp.mp hx.1).1, hwv⟩, (hiffp.mp hx.1).2⟩
        · intro hx
          exact ⟨hiffp.mpr ⟨hx.1.1, hx.2⟩, hwv⟩
  · -- reflexOk
    intro r hr
    have hrp : r ∈ p.reflex_list := hp'r ▸ hr
    obtain ⟨hrmem, hrtri⟩ := hInv.reflexOk r hrp
    have hrA : r ≠ t.A := fun he => hAnr (he ▸ hrp)
    have hrC : r ≠ t.C := fun he => hCnr (he ▸ hrp)
    have hrv : r ≠ v := fun he => hvnr (he ▸ hrp)
    have hrmem' : r ∈ p.vertex_list.erase v := by
      rw [hInv.nd.mem_erase_iff]
      exact ⟨hrv, hrmem⟩
    refine ⟨by rw [hp'l]; exact hrmem', ?_⟩
    intro tr hbr
    apply hrtri
    rw [← hstable r hrmem' hrA hrC]
    exact hbr
  · -- lastNot
    intro j hj
    rw [hp'l] at hj ⊢
    have hjn : j + 2 = p.vertex_list.length := by omega
    have hivle : p.vertex_list.indexOf v ≤ j := by omega
    have hlast : (p.vertex_list.erase v).getD j 0 =
        p.vertex_list.getD (j + 1) 0 := by
      rw [erase_getD hmem (by omega), if_neg (by omega)]
    obtain ⟨hlc, hle⟩ := hInv.lastNot (j + 1) (by omega)
    rw [hlast]
    by_cases hlA : p.vertex_list.getD (j + 1) 0 = t.A
    · -- the former predecessor of v is the last element: v was at position 0
      have hposA : j + 1 = prevIdx p.vertex_list.length (p.vertex_list.indexOf v) := by
        by_contra hne
        exact getD_inj hInv.nd (by omega) hjA hne (by rw [hlA, htA])
      have hiv0 : p.vertex_list.indexOf v = 0 := by
        unfold prevIdx at hposA
        rcases Nat.eq_zero_or_pos (p.vertex_list.indexOf v) with h0 | h0
        · exact h0
        · rw [if_pos h0] at hposA
          omega
      -- in the shrunken ring, A sits at the last position, so its triangle is
      -- degenerate and the convexity update cannot have fired
      have hApos' : (p.vertex_list.erase v).getD j 0 = t.A := by
        rw [hlast, hlA]
      have hdeg : Polygon.build_real_triangle_at ⟨p.vertices, p.vertex_list.erase v,
          sErase v p.convex_list, sErase v p.reflex_list, sErase v p.ear_list⟩ t.A =
          .ok ⟨p.vertices.getD ((p.vertex_list.erase v).getD
              (prevIdx (p.vertex_list.erase v).length j) 0) ⟨0, 0⟩,
            p.vertices.getD t.A ⟨0, 0⟩, p.vertices.getD t.A ⟨0, 0⟩⟩ := by
        exact build_last_degenerate hnd' hsub' (by simp only; omega) hApos'
      have htAdeg : tA = ⟨p.vertices.getD ((p.vertex_list.erase v).getD
          (prevIdx (p.vertex_list.erase v).length j) 0) ⟨0, 0⟩,
          p.vertices.getD t.A ⟨0, 0⟩, p.vertices.getD t.A ⟨0, 0⟩⟩ := by
        rw [hbtA] at hdeg
        exact Except.ok.inj hdeg
      have hgeoA : geom.is_convex tA = false := by
        rw [htAdeg]
        exact is_convex_last_eq _ _
      have hAnconv1 : t.A ∉ sErase v p.convex_list := by
        rw [mem_sErase]
        intro hx
        exact (hlA ▸ hlc) hx.1
      rcases hcaseA with ⟨hcvx, hmemc, hiff⟩ | ⟨hnc, hgeo, hnc2, hiff⟩
      · exfalso
        rcases hcvx with hx | hx
        · exact hAnconv1 hx
        · rw [hgeoA] at hx
          cases hx
      · rw [hlA]
        constructor
        · intro hx
          exact hnc2 (hAconv'.mp hx)
        · intro hx
          have hx2 := hiff.mp (hAear'.mp hx)
          rw [mem_sErase] at hx2
          exact (hlA ▸ hle) hx2.1
    · by_cases hlC : p.vertex_list.getD (j + 1) 0 = t.C
      · -- the former successor of v is the last element: v was just before it
        have hposC : j + 1 = p.vertex_list.indexOf v + 1 := by
          by_contra hne
          exact getD_inj hInv.nd (by omega) (by omega) hne (by rw [hlC, htC])
        have hCpos' : (p.vertex_list.erase v).getD j 0 = t.C := by
          rw [hlast, hlC]
        have hdeg : p2.build_real_triangle_at t.C =
            .ok ⟨p2.vertices.getD (p2.vertex_list.getD
                (prevIdx p2.vertex_list.length j) 0) ⟨0, 0⟩,
              p2.vertices.getD t.C ⟨0, 0⟩, p2.vertices.getD t.C ⟨0, 0⟩⟩ := by
          apply build_last_degenerate (by rw [hp2l]; exact hnd')
            (by rw [hp2l, hp2v]; exact hsub')
          · rw [hp2l]
            omega
          · rw [hp2l]
            exact hCpos'
        have htCdeg : tC = ⟨p2.vertices.getD (p2.vertex_list.getD
            (prevIdx p2.vertex_list.length j) 0) ⟨0, 0⟩,
            p2.vertices.getD t.C ⟨0, 0⟩, p2.vertices.getD t.C ⟨0, 0⟩⟩ := by
          rw [hbtC] at hdeg
          exact Except.ok.inj hdeg
        have hgeoC : geom.is_convex tC = false := by
          rw [htCdeg]
          exact is_convex_last_eq _ _
        have hCnconv2 : t.C ∉ p2.convex_list := by
          rw [hCconv2, mem_sErase]
          intro hx
          exact (hlC ▸ hlc) hx.1
        rcases hcaseC with ⟨hcvx, hmemc, hiff⟩ | ⟨hnc, hgeo, hnc', hiff⟩
        · exfalso
          rcases hcvx with hx | hx
          · exact hCnconv2 hx
          · rw [hgeoC] at hx
            cases hx
        · rw [hlC]
          constructor
          · exact hnc'
          · intro hx
            have hx2 := hCear2.mp (hiff.mp hx)
            rw [mem_sErase] at hx2
            exact (hlC ▸ hle) hx2.1
      · obtain ⟨hcw, hew⟩ := hmems (p.vertex_list.getD (j + 1) 0) hlA hlC
        constructor
        · intro hx
          have := mem_sErase.mp (hcw.mp hx)
          exact hlc this.1
        · intro hx
          have := mem_sErase.mp (hew.mp hx)
          exact hle this.1

/-- Inversion of the classification loop: ring, points and ear set unchanged;
a vertex is in the final convex (reflex) set iff it was already there or it is
a processed vertex whose triangle tests convex (reflex). -/
theorem classifyLoop_spec {l : List ℕ} {p p1 : Polygon} (h : classifyLoop p l = .ok p1) :
    p1.vertex_list = p.vertex_list ∧ p1.vertices = p.vertices ∧ p1.ear_list = p.ear_list ∧
    (∀ w, (w ∈ p1.convex_list ↔ w ∈ p.convex_list ∨
      (w ∈ l ∧ ∃ t, p.build_real_triangle_at w = .ok t ∧ geom.is_convex t = true))) ∧
    (∀ w, (w ∈ p1.reflex_list ↔ w ∈ p.reflex_list ∨
      (w ∈ l ∧ ∃ t, p.build_real_triangle_at w = .ok t ∧ geom.is_reflex t = true))) := by
  induction l generalizing p with
  | nil =>
    unfold classifyLoop at h
    cases h
    exact ⟨rfl, rfl, rfl, fun w => by simp, fun w => by simp⟩
  | cons v rest ih =>
    unfold classifyLoop at h
    cases hb : p.build_real_triangle_at v with
    | error e => rw [hb] at h; cases h
    | ok ABC =>
      rw [hb] at h
      simp only at h
      have hdet : ∀ {w t2}, p.build_real_triangle_at w = .ok t2 → w = v → t2 = ABC := by
        intro w t2 hb2 hwv
        subst hwv
        rw [hb] at hb2
        exact (Except.ok.inj hb2).symm
      cases hcv : geom.is_convex ABC with
      | true =>
        cases hrf : geom.is_reflex ABC with
        | false =>
          simp only [hcv, hrf, Bool.false_eq_true, if_true, if_false] at h
          obtain ⟨h1, h2, h3, h4, h5⟩ := ih h
          have hbx : ∀ u, Polygon.build_real_triangle_at
              { p with convex_list := sInsert v p.convex_list } u =
              p.build_real_triangle_at u := fun u => build_real_congr rfl rfl u
          simp only [hbx] at h4 h5
          refine ⟨h1, h2, h3, ?_, ?_⟩
          · intro w
            rw [h4 w]
            simp only [mem_sInsert, List.mem_cons]
            constructor
            · rintro (hx | hx)
              · rcases hx with he | hx2
                · subst he
                  exact Or.inr ⟨Or.inl rfl, ABC, hb, hcv⟩
                · exact Or.inl hx2
              · exact Or.inr ⟨Or.inr hx.1, hx.2⟩
            · rintro (hx | hx)
              · exact Or.inl (Or.inr hx)
              · rcases hx.1 with he | hm
                · exact Or.inl (Or.inl he)
                · exact Or.inr ⟨hm, hx.2⟩
          · intro w
            rw [h5 w]
            simp only [List.mem_cons]
            constructor
            · rintro (hx | hx)
              · exact Or.inl hx
              · exact Or.inr ⟨Or.inr hx.1, hx.2⟩
            · rintro (hx | hx)
              · exact Or.inl hx
              · rcases hx.1 with he | hm
                · obtain ⟨t2, hb2, hg2⟩ := hx.2
                  rw [hdet hb2 he] at hg2
                  rw [hg2] at hrf
                  cases hrf
                · exact Or.inr ⟨hm, hx.2⟩
        | true =>
          simp only [hcv, hrf, if_true] at h
          obtain ⟨h1, h2, h3, h4, h5⟩ := ih h
          have hbx : ∀ u, Polygon.build_real_triangle_at
              { p with convex_list := sInsert v p.convex_list,
                       reflex_list := sInsert v p.reflex_list } u =
              p.build_real_triangle_at u := fun u => build_real_congr rfl rfl u
          simp only [hbx] at h4 h5
          refine ⟨h1, h2, h3, ?_, ?_⟩
          · intro w
            rw [h4 w]
            simp only [mem_sInsert, List.mem_cons]
            constructor
            · rintro (hx | hx)
              · rcases hx with he | hx2
                · subst he
                  exact Or.inr ⟨Or.inl rfl, ABC, hb, hcv⟩
                · exact Or.inl hx2
              · exact Or.inr ⟨Or.inr hx.1, hx.2⟩
            · rintro (hx | hx)
              · exact Or.inl (Or.inr hx)
              · rcases hx.1 with he | hm
                · exact Or.inl (Or.inl he)
                · exact Or.inr ⟨hm, hx.2⟩
          · intro w
            rw [h5 w]
            simp only [mem_sInsert, List.mem_cons]
            constructor
            · rintro (hx | hx)
              · rcases hx with he | hx2
                · subst he
                  exact Or.inr ⟨Or.inl rfl, ABC, hb, hrf⟩
                · exact Or.inl hx2
              · exact Or.inr ⟨Or.inr hx.1, hx.2⟩
            · rintro (hx | hx)
              · exact Or.inl (Or.inr hx)
              · rcases hx.1 with he | hm
                · exact Or.inl (Or.inl he)
                · exact Or.inr ⟨hm, hx.2⟩
      | false =>
        cases hrf : geom.is_reflex ABC with
        | false =>
          simp only [hcv, hrf, Bool.false_eq_true, if_true, if_false] at h
          obtain ⟨h1, h2, h3, h4, h5⟩ := ih h
          refine ⟨h1, h2, h3, ?_, ?_⟩
          · intro w
            rw [h4 w]
            simp only [List.mem_cons]
            constructor
            · rintro (hx | hx)
              · exact Or.inl hx
              · exact Or.inr ⟨Or.inr hx.1, hx.2⟩
            · rintro (hx | hx)
              · exact Or.inl hx
              · rcases hx.1 with he | hm
                · obtain ⟨t2, hb2, hg2⟩ := hx.2
                  rw [hdet hb2 he] at hg2
                  rw [hg2] at hcv
                  cases hcv
                · exact Or.inr ⟨hm, hx.2⟩
          · intro w
            rw [h5 w]
            simp only [List.mem_cons]
            constructor
            · rintro (hx | hx)
              · exact Or.inl hx
              · exact Or.inr ⟨Or.inr hx.1, hx.2⟩
            · rintro (hx | hx)
              · exact Or.inl hx
              · rcases hx.1 with he | hm
                · obtain ⟨t2, hb2, hg2⟩ := hx.2
                  rw [hdet hb2 he] at hg2
                  rw [hg2] at hrf
                  cases hrf
                · exact Or.inr ⟨hm, hx.2⟩
        | true =>
          simp only [hcv, hrf, Bool.false_eq_true, if_true, if_false] at h
          obtain ⟨h1, h2, h3, h4, h5⟩ := ih h
          have hbx : ∀ u, Polygon.build_real_triangle_at
              { p with reflex_list := sInsert v p.reflex_list } u =
              p.build_real_triangle_at u := fun u => build_real_congr rfl rfl u
          simp only [hbx] at h4 h5
          refine ⟨h1, h2, h3, ?_, ?_⟩
          · intro w
            rw [h4 w]
            simp only [List.mem_cons]
            constructor
            · rintro (hx | hx)
              · exact Or.inl hx
              · exact Or.inr ⟨Or.inr hx.1, hx.2⟩
            · rintro (hx | hx)
              · exact Or.inl hx
              · rcases hx.1 with he | hm
                · obtain ⟨t2, hb2, hg2⟩ := hx.2
                  rw [hdet hb2 he] at hg2
                  rw [hg2] at hcv
                  cases hcv
                · exact Or.inr ⟨hm, hx.2⟩
          · intro w
            rw [h5 w]
            simp only [mem_sInsert, List.mem_cons]
            constructor
            · rintro (hx | hx)
              · rcases hx with he | hx2
                · subst he
                  exact Or.inr ⟨Or.inl rfl, ABC, hb, hrf⟩
                · exact Or.inl hx2
              · exact Or.inr ⟨Or.inr hx.1, hx.2⟩
            · rintro (hx | hx)
              · exact Or.inl (Or.inr hx)
              · rcases hx.1 with he | hm
                · exact Or.inl (Or.inl he)
                · exact Or.inr ⟨hm, hx.2⟩

/-- Inversion of the ear-seeding loop: everything except the ear set is
unchanged; a vertex ends in the ear set iff it was there or it is a processed
vertex whose current triangle passes the reflex scan. -/
theorem earLoop_spec {l : List ℕ} {p p1 : Polygon} (h : earLoop p l = .ok p1) :
    p1.vertex_list = p.vertex_list ∧ p1.vertices = p.vertices ∧
    p1.convex_list = p.convex_list ∧ p1.reflex_list = p.reflex_list ∧
    (p.ear_list.Sorted (· < ·) → p1.ear_list.Sorted (· < ·)) ∧
    (∀ w, (w ∈ p1.ear_list ↔ w ∈ p.ear_list ∨
      (w ∈ l ∧ ∃ t, p.build_real_triangle_at w = .ok t ∧ p.earScan t = true))) := by
  induction l generalizing p with
  | nil =>
    unfold earLoop at h
    cases h
    exact ⟨rfl, rfl, rfl, rfl, fun hs => hs, fun w => by simp⟩
  | cons v rest ih =>
    unfold earLoop at h
    cases hie : p.is_ear v false with
    | error e => rw [hie] at h; cases h
    | ok be =>
      rw [hie] at h
      obtain ⟨t, hb, hbe⟩ := is_ear_inv hie
      have hdet : ∀ {w t2}, p.build_real_triangle_at w = .ok t2 → w = v → t2 = t := by
        intro w t2 hb2 hwv
        subst hwv
        rw [hb] at hb2
        exact (Except.ok.inj hb2).symm
      cases be with
      | true =>
        simp only at h
        obtain ⟨h1, h2, h3, h4, h5, h6⟩ := ih h
        have hbx : ∀ u, Polygon.build_real_triangle_at
            { p with ear_list := sInsert v p.ear_list } u =
            p.build_real_triangle_at u := fun u => build_real_congr rfl rfl u
        have hsx : ∀ tt, Polygon.earScan { p with ear_list := sInsert v p.ear_list } tt =
            p.earScan tt := fun tt => by
          unfold Polygon.earScan
          rfl
        simp only [hbx, hsx] at h6
        refine ⟨h1, h2, h3, h4, ?_, ?_⟩
        · intro hs
          exact h5 (sInsert_sorted hs)
        · intro w
          rw [h6 w]
          simp only [mem_sInsert, List.mem_cons]
          constructor
          · rintro (hx | hx)
            · rcases hx with he | hx2
              · subst he
                exact Or.inr ⟨Or.inl rfl, t, hb, hbe.symm⟩
              · exact Or.inl hx2
            · exact Or.inr ⟨Or.inr hx.1, hx.2⟩
          · rintro (hx | hx)
            · exact Or.inl (Or.inr hx)
            · rcases hx.1 with he | hm
              · exact Or.inl (Or.inl he)
              · exact Or.inr ⟨hm, hx.2⟩
      | false =>
        simp only at h
        obtain ⟨h1, h2, h3, h4, h5, h6⟩ := ih h
        refine ⟨h1, h2, h3, h4, h5, ?_⟩
        intro w
        rw [h6 w]
        simp only [List.mem_cons]
        constructor
        · rintro (hx | hx)
          · exact Or.inl hx
          · exact Or.inr ⟨Or.inr hx.1, hx.2⟩
        · rintro (hx | hx)
          · exact Or.inl hx
          · rcases hx.1 with he | hm
            · obtain ⟨t2, hb2, hs2⟩ := hx.2
              rw [hdet hb2 he] at hs2
              rw [← hbe] at hs2
              cases hs2
            · exact Or.inr ⟨hm, hx.2⟩

/-- Inversion of the constructor: the ring is `[0 .. n-1]`, the convex and
reflex sets hold exactly the ring vertices whose triangle tests convex
(reflex), and the ear set holds exactly the convex vertices whose triangle
passes the reflex scan. -/
theorem mkPolygon_spec {vs : List Vec2} {p0 : Polygon} (h : mkPolygon vs = .ok p0) :
    p0.vertices = vs ∧ p0.vertex_list = List.range vs.length ∧
    (∀ w, w ∈ p0.convex_list ↔ w ∈ List.range vs.length ∧
      ∃ t, p0.build_real_triangle_at w = .ok t ∧ geom.is_convex t = true) ∧
    (∀ w, w ∈ p0.reflex_list ↔ w ∈ List.range vs.length ∧
      ∃ t, p0.build_real_triangle_at w = .ok t ∧ geom.is_reflex t = true) ∧
    (∀ w, w ∈ p0.ear_list ↔ w ∈ p0.convex_list ∧
      ∃ t, p0.build_real_triangle_at w = .ok t ∧ ScanClear p0 t) ∧
    p0.ear_list.Sorted (· < ·) := by
  unfold mkPolygon at h
  simp only at h
  cases hc : classifyLoop ⟨vs, List.range vs.length, [], [], []⟩ (List.range vs.length) with
  | error e => rw [hc] at h; cases h
  | ok pc =>
    rw [hc] at h
    obtain ⟨c1, c2, c3, c4, c5⟩ := classifyLoop_spec hc
    obtain ⟨e1, e2, e3, e4, e5, e6⟩ := earLoop_spec h
    have hbc : ∀ u, Polygon.build_real_triangle_at
        ⟨vs, List.range vs.length, [], [], []⟩ u = pc.build_real_triangle_at u :=
      fun u => build_real_congr c1.symm c2.symm u
    have hbp : ∀ u, pc.build_real_triangle_at u = p0.build_real_triangle_at u :=
      fun u => build_real_congr e1.symm e2.symm u
    have hv0 : p0.vertices = vs := by rw [e2, c2]
    have hl0 : p0.vertex_list = List.range vs.length := by rw [e1, c1]
    refine ⟨hv0, hl0, ?_, ?_, ?_, e5 (c3 ▸ List.sorted_nil)⟩
    · intro w
      rw [e3, c4 w]
      simp only [hbc, hbp, List.not_mem_nil, false_or]
    · intro w
      rw [e4, c5 w]
      simp only [hbc, hbp, List.not_mem_nil, false_or]
    · intro w
      rw [e6 w, c3]
      simp only [List.not_mem_nil, false_or, e3]
      constructor
      · rintro ⟨hm, t, hb, hs⟩
        refine ⟨hm, t, ?_, ?_⟩
        · rw [← hbp w]
          exact hb
        · have hbr : pc.earScan t = true ↔ ScanClear p0 t := by
            rw [earScan_iff]
            exact scanClear_congr e4.symm e2.symm t
          exact hbr.mp hs
      · rintro ⟨hm, t, hb, hs⟩
        refine ⟨hm, t, ?_, ?_⟩
        · rw [hbp w]
          exact hb
        · have hbr : pc.earScan t = true ↔ ScanClear p0 t := by
            rw [earScan_iff]
            exact scanClear_congr e4.symm e2.symm t
          exact hbr.mpr hs

/-- `getD` on an initial segment. -/
theorem getD_range {n j : ℕ} (h : j < n) : (List.range n).getD j 0 = j := by
  rw [List.getD_eq_getElem _ 0 (by simpa using h)]
  simp

/-- The constructor establishes the invariant. -/
theorem mkPolygon_inv {vs : List Vec2} {p0 : Polygon} (h : mkPolygon vs = .ok p0) :
    PolyInv p0 := by
  obtain ⟨hv, hl, hc, hr, he, hs⟩ := mkPolygon_spec h
  have hnd : p0.vertex_list.Nodup := by
    rw [hl]
    exact List.nodup_range _
  have hsub : ∀ u ∈ p0.vertex_list, u < p0.vertices.length := by
    intro u hu
    rw [hl] at hu
    rw [hv]
    exact List.mem_range.mp hu
  refine ⟨hnd, hsub, ?_, hs, ?_, ?_, ?_⟩
  · intro w hw
    rw [hl]
    exact ((hc w).mp ((he w).mp hw).1).1
  · intro w hw t hb
    constructor
    · intro hx
      obtain ⟨hm, t2, hb2, hs2⟩ := (he w).mp hx
      rw [hb] at hb2
      rw [← Except.ok.inj hb2] at hs2
      exact ⟨hm, hs2⟩
    · rintro ⟨hm, hs2⟩
      exact (he w).mpr ⟨hm, t, hb, hs2⟩
  · intro r hrm
    obtain ⟨hm, t2, hb2, hg2⟩ := (hr r).mp hrm
    refine ⟨by rw [hl]; exact hm, ?_⟩
    intro t hb
    rw [hb2] at hb
    rw [← Except.ok.inj hb]
    exact hg2
  · intro j hj
    have hjl : j < p0.vertex_list.length := by omega
    have hgd : p0.vertex_list.getD j 0 = j := by
      rw [hl]
      rw [hl] at hjl
      exact getD_range (by simpa using hjl)
    have hdeg := build_last_degenerate hnd hsub hj hgd
    have hnc : p0.vertex_list.getD j 0 ∉ p0.convex_list := by
      rw [hgd]
      intro hx
      obtain ⟨hm, t2, hb2, hg2⟩ := (hc j).mp hx
      rw [hdeg] at hb2
      rw [← Except.ok.inj hb2] at hg2
      rw [is_convex_last_eq] at hg2
      cases hg2
    refine ⟨hnc, ?_⟩
    intro hx
    exact hnc (((he _).mp hx).1)

/-- A successful `update_vertex` exists at every ring member of a well-formed
state. -/
theorem update_vertex_ok {q : Polygon} {x : ℕ} (nd : q.vertex_list.Nodup)
    (hx : x ∈ q.vertex_list) (hsub : ∀ u ∈ q.vertex_list, u < q.vertices.length) :
    ∃ q', q.update_vertex x = .ok q' := by
  obtain ⟨t, hb⟩ := build_real_ok nd hx hsub
  have hic : ∃ b, q.is_convex x = .ok b := by
    by_cases hm : x ∈ q.convex_list
    · exact ⟨true, is_convex_of_mem hm⟩
    · exact ⟨_, is_convex_of_not_mem hm hb⟩
  obtain ⟨b, hic⟩ := hic
  unfold Polygon.update_vertex Polygon.update_vertex_convexity
  rw [hic]
  cases b with
  | false => exact ⟨q, rfl⟩
  | true =>
    have hb1 : Polygon.build_real_triangle_at
        { q with convex_list := sInsert x q.convex_list,
                 reflex_list := sErase x q.reflex_list } x = .ok t := by
      rw [build_real_congr rfl rfl x]
      exact hb
    simp only
    unfold Polygon.update_vertex_earness
    rw [is_ear_eq hb1]
    cases Polygon.earScan _ t with
    | true => exact ⟨_, rfl⟩
    | false => exact ⟨_, rfl⟩

/-- In an invariant state, removing an ear vertex always succeeds. -/
theorem remove_vertex_ok {p : Polygon} {v : ℕ} (hInv : PolyInv p) (hear : v ∈ p.ear_list)
    (hsize : 2 < p.vertex_list.length) :
    ∃ t p', p.remove_vertex v = .ok (t, p') := by
  have hmem : v ∈ p.vertex_list := hInv.earSub v hear
  have hiv : p.vertex_list.indexOf v < p.vertex_list.length := List.indexOf_lt_length.mpr hmem
  have hvval : p.vertex_list.getD (p.vertex_list.indexOf v) 0 = v := (indexOf_getD_self hmem).1
  have hnl : p.vertex_list.indexOf v + 1 < p.vertex_list.length := by
    by_contra hcon
    have hlast : p.vertex_list.indexOf v = p.vertex_list.length - 1 := by omega
    obtain ⟨_, hne⟩ := hInv.lastNot (p.vertex_list.length - 1) (by omega)
    rw [← hlast, hvval] at hne
    exact hne hear
  have hb : p.build_fake_triangle_at v =
      .ok ⟨p.vertex_list.getD (prevIdx p.vertex_list.length (p.vertex_list.indexOf v)) 0, v,
           p.vertex_list.getD (nextIdx p.vertex_list.length (p.vertex_list.indexOf v)) 0⟩ := by
    unfold Polygon.build_fake_triangle_at
    rw [bte_eq_bti hInv.nd hiv hvval, bti_ok hiv, hvval]
  have hnext : nextIdx p.vertex_list.length (p.vertex_list.indexOf v) =
      p.vertex_list.indexOf v + 1 := by
    unfold nextIdx
    rw [if_pos (by omega)]
  have hjA : prevIdx p.vertex_list.length (p.vertex_list.indexOf v) < p.vertex_list.length :=
    prevIdx_lt hiv
  have hAv : p.vertex_list.getD (prevIdx p.vertex_list.length (p.vertex_list.indexOf v)) 0
      ≠ v := by
    have hne := getD_inj hInv.nd hjA hiv (by unfold prevIdx; split <;> omega)
    rw [hvval] at hne
    exact hne
  have hCv : p.vertex_list.getD (p.vertex_list.indexOf v + 1) 0 ≠ v := by
    have hne := getD_inj hInv.nd (show p.vertex_list.indexOf v + 1 < p.vertex_list.length by
      omega) hiv (by omega)
    rw [hvval] at hne
    exact hne
  have hnd' : (p.vertex_list.erase v).Nodup := hInv.nd.erase v
  have hsub' : ∀ u ∈ p.vertex_list.erase v, u < p.vertices.length := fun u hu =>
    hInv.sub u (hInv.nd.mem_erase_iff.mp hu).2
  have hAmem : p.vertex_list.getD (prevIdx p.vertex_list.length (p.vertex_list.indexOf v)) 0
      ∈ p.vertex_list.erase v := by
    rw [hInv.nd.mem_erase_iff]
    exact ⟨hAv, getD_mem hjA⟩
  have hCmem : p.vertex_list.getD (p.vertex_list.indexOf v + 1) 0 ∈ p.vertex_list.erase v := by
    rw [hInv.nd.mem_erase_iff]
    exact ⟨hCv, getD_mem (by omega)⟩
  obtain ⟨p2, hup2⟩ := update_vertex_ok (q := ⟨p.vertices, p.vertex_list.erase v,
    sErase v p.convex_list, sErase v p.reflex_list, sErase v p.ear_list⟩) hnd' hAmem hsub'
  have hr2 := update_vertex_ring hup2
  obtain ⟨p3, hup3⟩ := update_vertex_ok (q := p2)
    (by rw [hr2.1]; exact hnd')
    (by rw [hr2.1]; exact hCmem)
    (by rw [hr2.1, hr2.2]; exact hsub')
  rw [hnext] at hb
  refine ⟨⟨p.vertex_list.getD (prevIdx p.vertex_list.length (p.vertex_list.indexOf v)) 0, v,
      p.vertex_list.getD (p.vertex_list.indexOf v + 1) 0⟩, p3, ?_⟩
  unfold Polygon.remove_vertex
  rw [hb]
  simp only
  rw [hup2]
  simp only
  rw [hup3]

/-- `get_next_ear` returns a member of the ear set. -/
theorem get_next_ear_mem {p : Polygon} {v : ℕ} (h : p.get_next_ear = .ok v) :
    v ∈ p.ear_list := by
  unfold Polygon.get_next_ear at h
  cases he : p.ear_list with
  | nil => rw [he] at h; cases h
  | cons a l =>
    rw [he] at h
    rw [← Except.ok.inj h]
    exact List.mem_cons_self a l

/-- The states the driver loop passes through: each step picks the next ear
of a ring that still has more than two vertices and removes it. -/
inductive Steps : Polygon → Polygon → Prop where
  | refl (p : Polygon) : Steps p p
  | tail {p q r : Polygon} {v : ℕ} {t : Triangle ℕ} (h : Steps p q)
      (hsize : 2 < q.vertex_list.length) (hv : q.get_next_ear = .ok v)
      (hr : q.remove_vertex v = .ok (t, r)) : Steps p r

/-- The invariant, the reflex set and the point array persist along every
driver path. -/
theorem steps_inv {p q : Polygon} (hInv : PolyInv p) (h : Steps p q) :
    PolyInv q ∧ q.reflex_list = p.reflex_list ∧ q.vertices = p.vertices := by
  induction h with
  | refl => exact ⟨hInv, rfl, rfl⟩
  | tail h hsize hv hr ih =>
    obtain ⟨hq, hrfl, hvert⟩ := ih
    obtain ⟨h1, h2, h3, _⟩ := inv_remove hq (get_next_ear_mem hv) hsize hr
    exact ⟨h1, h2.trans hrfl, h3.trans hvert⟩

/-- `has_ear` is true exactly on a non-empty ear set. -/
theorem has_ear_iff {p : Polygon} : p.has_ear = true ↔ p.ear_list ≠ [] := by
  unfold Polygon.has_ear
  cases p.ear_list <;> simp

/-- A non-empty ear set makes `get_next_ear` return its head. -/
theorem get_next_ear_ok {p : Polygon} (h : p.ear_list ≠ []) :
    ∃ v, p.get_next_ear = .ok v := by
  unfold Polygon.get_next_ear
  cases he : p.ear_list with
  | nil => exact absurd he h
  | cons a l => exact ⟨a, rfl⟩

/-- One driver iteration whose recursive call fails propagates the error. -/
theorem loop_step_error {q r : Polygon} {v : ℕ} {t : Triangle ℕ} {e : CppError}
    (hsize : 2 < q.vertex_list.length) (hv : q.get_next_ear = .ok v)
    (hr : q.remove_vertex v = .ok (t, r)) (hl : triangulateLoop r = .error e) :
    triangulateLoop q = .error e := by
  have hne : q.ear_list ≠ [] := by
    intro he
    unfold Polygon.get_next_ear at hv
    rw [he] at hv
    cases hv
  unfold triangulateLoop
  rw [if_pos hsize, if_pos (has_ear_iff.mpr hne), hv]
  simp only
  split
  · rename_i e2 heq
    rw [hr] at heq
    cases heq
  · rename_i ear p2 heq
    rw [hr] at heq
    obtain ⟨h1, h2⟩ := Prod.mk.injEq .. ▸ Except.ok.inj heq
    subst h1
    subst h2
    rw [hl]

/-- One driver iteration whose recursive call succeeds prepends the harvested
triangle. -/
theorem loop_step_ok {q r : Polygon} {v : ℕ} {t : Triangle ℕ} {ts : List (Triangle ℕ)}
    (hsize : 2 < q.vertex_list.length) (hv : q.get_next_ear = .ok v)
    (hr : q.remove_vertex v = .ok (t, r)) (hl : triangulateLoop r = .ok ts) :
    triangulateLoop q = .ok (t :: ts) := by
  have hne : q.ear_list ≠ [] := by
    intro he
    unfold Polygon.get_next_ear at hv
    rw [he] at hv
    cases hv
  unfold triangulateLoop
  rw [if_pos hsize, if_pos (has_ear_iff.mpr hne), hv]
  simp only
  split
  · rename_i e2 heq
    rw [hr] at heq
    cases heq
  · rename_i ear p2 heq
    rw [hr] at heq
    obtain ⟨h1, h2⟩ := Prod.mk.injEq .. ▸ Except.ok.inj heq
    subst h1
    subst h2
    rw [hl]

/-- The loop at a state with more than two ring vertices and no ear fails
with the non-simple signal. -/
theorem loop_no_ear {q : Polygon} (hsize : 2 < q.vertex_list.length)
    (hne : q.ear_list = []) : triangulateLoop q = .error .nonSimple := by
  unfold triangulateLoop
  rw [if_pos hsize, if_neg]
  intro hx
  exact (has_ear_iff.mp hx) hne

/-- The loop at a state with at most two ring vertices succeeds with no
output. -/
theorem loop_done {q : Polygon} (hsize : ¬ 2 < q.vertex_list.length) :
    triangulateLoop q = .ok [] := by
  unfold triangulateLoop
  rw [if_neg hsize]

/-- Driver paths compose. -/
theorem steps_trans {a b c : Polygon} (h1 : Steps a b) (h2 : Steps b c) : Steps a c := by
  induction h2 with
  | refl => exact h1
  | tail h hsize hv hr ih => exact Steps.tail ih hsize hv hr

/-- Errors of the loop propagate backwards along driver paths. -/
theorem loop_error_steps {p q : Polygon} {e : CppError} (h : Steps p q)
    (he : triangulateLoop q = .error e) : triangulateLoop p = .error e := by
  induction h with
  | refl => exact he
  | tail h hsize hv hr ih =>
    exact ih (loop_step_error hsize hv hr he)

/-- Inversion of a successful loop at a large ring: it took one full
iteration. -/
theorem loop_ok_inv {p : Polygon} {ts : List (Triangle ℕ)}
    (hsize : 2 < p.vertex_list.length) (h : triangulateLoop p = .ok ts) :
    ∃ v t p' ts', p.get_next_ear = .ok v ∧ p.remove_vertex v = .ok (t, p') ∧
      triangulateLoop p' = .ok ts' ∧ ts = t :: ts' := by
  unfold triangulateLoop at h
  rw [if_pos hsize] at h
  by_cases hear : p.has_ear = true
  · rw [if_pos hear] at h
    cases hv : p.get_next_ear with
    | error e => rw [hv] at h; cases h
    | ok v =>
      rw [hv] at h
      simp only at h
      split at h
      · cases h
      · rename_i ear p2 heq
        split at h
        · cases h
        · rename_i ts2 hl2
          refine ⟨v, ear, p2, ts2, rfl, heq, hl2, (Except.ok.inj h).symm⟩
  · rw [if_neg hear] at h
    cases h

/-- Inversion of a failing loop at a large ring. -/
theorem loop_error_cases {p : Polygon} {e : CppError} (hsize : 2 < p.vertex_list.length)
    (h : triangulateLoop p = .error e) :
    (p.ear_list = [] ∧ e = .nonSimple) ∨
    (∃ v, p.get_next_ear = .ok v ∧
      ((p.remove_vertex v = .error e) ∨
       (∃ t p', p.remove_vertex v = .ok (t, p') ∧ triangulateLoop p' = .error e))) := by
  unfold triangulateLoop at h
  rw [if_pos hsize] at h
  by_cases hear : p.has_ear = true
  · rw [if_pos hear] at h
    cases hv : p.get_next_ear with
    | error e2 =>
      rw [hv] at h
      -- get_next_ear only fails on an empty ear set, contradicting has_ear
      exfalso
      unfold Polygon.get_next_ear at hv
      cases he2 : p.ear_list with
      | nil => exact (has_ear_iff.mp hear) he2
      | cons a l => rw [he2] at hv; cases hv
    | ok v =>
      rw [hv] at h
      simp only at h
      right
      refine ⟨v, rfl, ?_⟩
      split at h
      · rename_i e2 heq
        left
        rw [heq]
        exact congrArg Except.error (Except.error.inj h)
      · rename_i ear p2 heq
        right
        refine ⟨ear, p2, heq, ?_⟩
        split at h
        · rename_i e2 hl2
          rw [hl2]
          exact congrArg Except.error (Except.error.inj h)
        · cases h
  · rw [if_neg hear] at h
    left
    refine ⟨?_, (Except.error.inj h).symm⟩
    cases he2 : p.ear_list with
    | nil => rfl
    | cons a l =>
      exfalso
      apply hear
      rw [has_ear_iff, he2]
      simp

/-- On success from a ring of at least two vertices, exactly `size - 2`
triangles come out. -/
theorem loop_len : ∀ {n : ℕ} {p : Polygon} {ts : List (Triangle ℕ)},
    p.vertex_list.length = n → 2 ≤ n → triangulateLoop p = .ok ts →
    ts.length + 2 = n := by
  intro n
  induction n using Nat.strong_induction_on with
  | _ n ih =>
    intro p ts hn h2 h
    by_cases hsize : 2 < p.vertex_list.length
    · obtain ⟨v, t, p', ts', hv, hr, hl, hts⟩ := loop_ok_inv hsize h
      obtain ⟨hring, _, hmem⟩ := remove_vertex_ring hr
      have hlen' : p'.vertex_list.length = n - 1 := by
        rw [hring]
        have := List.length_erase_add_one hmem
        omega
      have := ih (n - 1) (by omega) hlen' (by omega) hl
      rw [hts]
      simp only [List.length_cons]
      omega
    · rw [loop_done hsize] at h
      cases h
      simp only [List.length_nil]
      omega

/-- In an invariant state, the only way the loop can fail is the non-simple
signal, fired at some driver-reachable state with a big ring and no ear. -/
theorem loop_error_full : ∀ {n : ℕ} {p : Polygon} {e : CppError},
    p.vertex_list.length = n → PolyInv p → triangulateLoop p = .error e →
    e = .nonSimple ∧ ∃ q, Steps p q ∧ 2 < q.vertex_list.length ∧ q.ear_list = [] := by
  intro n
  induction n using Nat.strong_induction_on with
  | _ n ih =>
    intro p e hn hInv h
    by_cases hsize : 2 < p.vertex_list.length
    · rcases loop_error_cases hsize h with ⟨hear, hee⟩ | ⟨v, hv, hrest⟩
      · exact ⟨hee, p, Steps.refl p, hsize, hear⟩
      · have hmem : v ∈ p.ear_list := get_next_ear_mem hv
        obtain ⟨t0, p0, hok⟩ := remove_vertex_ok hInv hmem hsize
        rcases hrest with herr | ⟨t, p', hrem, hl⟩
        · rw [hok] at herr
          cases herr
        · obtain ⟨hInv', _, _, _⟩ := inv_remove hInv hmem hsize hrem
          obtain ⟨hring, _, hmem2⟩ := remove_vertex_ring hrem
          have hlen' : p'.vertex_list.length = n - 1 := by
            rw [hring]
            have := List.length_erase_add_one hmem2
            omega
          obtain ⟨he1, q, hsq, hq2, hq3⟩ := ih (n - 1) (by omega) hlen' hInv' hl
          refine ⟨he1, q, ?_, hq2, hq3⟩
          exact steps_trans (Steps.tail (Steps.refl p) hsize hv hrem) hsq
    · rw [loop_done hsize] at h
      cases h

/-- Every triangle a successful loop emits has pairwise-distinct corners, all
of them valid indices into the point array. -/
theorem loop_output : ∀ {n : ℕ} {p : Polygon} {ts : List (Triangle ℕ)},
    p.vertex_list.length = n → PolyInv p → triangulateLoop p = .ok ts →
    ∀ tr ∈ ts, (tr.A ≠ tr.B ∧ tr.B ≠ tr.C ∧ tr.A ≠ tr.C) ∧
      tr.A < p.vertices.length ∧ tr.B < p.vertices.length ∧ tr.C < p.vertices.length := by
  intro n
  induction n using Nat.strong_induction_on with
  | _ n ih =>
    intro p ts hn hInv h tr htr
    by_cases hsize : 2 < p.vertex_list.length
    · obtain ⟨v, t, p', ts', hv, hr, hl, hts⟩ := loop_ok_inv hsize h
      subst hts
      have hmem : v ∈ p.ear_list := get_next_ear_mem hv
      rcases List.mem_cons.mp htr with he | hm
      · subst he
        obtain ⟨hvm, hnl, htA, htB, htC⟩ := remove_vertex_tri hInv.nd hr
        have hiv : p.vertex_list.indexOf v < p.vertex_list.length :=
          List.indexOf_lt_length.mpr hvm
        have hvval : p.vertex_list.getD (p.vertex_list.indexOf v) 0 = v :=
          (indexOf_getD_self hvm).1
        have hjA : prevIdx p.vertex_list.length (p.vertex_list.indexOf v) <
            p.vertex_list.length := prevIdx_lt hiv
        have hab : tr.A ≠ tr.B := by
          have hne := getD_inj hInv.nd hjA hiv
            (show prevIdx p.vertex_list.length (p.vertex_list.indexOf v) ≠
              p.vertex_list.indexOf v by unfold prevIdx; split <;> omega)
          rw [hvval] at hne
          rw [htA, htB]
          exact hne
        have hbc : tr.B ≠ tr.C := by
          have hne := getD_inj hInv.nd hiv
            (show p.vertex_list.indexOf v + 1 < p.vertex_list.length by omega) (by omega)
          rw [hvval] at hne
          rw [htB, htC]
          exact hne
        have hac : tr.A ≠ tr.C := by
          have hne := getD_inj hInv.nd hjA
            (show p.vertex_list.indexOf v + 1 < p.vertex_list.length by omega)
            (show prevIdx p.vertex_list.length (p.vertex_list.indexOf v) ≠
              p.vertex_list.indexOf v + 1 by unfold prevIdx; split <;> omega)
          rw [htA, htC]
          exact hne
        refine ⟨⟨hab, hbc, hac⟩, ?_, ?_, ?_⟩
        · rw [htA]
          exact hInv.sub _ (getD_mem hjA)
        · rw [htB]
          exact hInv.sub _ hvm
        · rw [htC]
          exact hInv.sub _ (getD_mem (by omega))
      · obtain ⟨hInv', _, hvvert, _⟩ := inv_remove hInv hmem hsize hr
        obtain ⟨hring, _, hmem2⟩ := remove_vertex_ring hr
        have hlen' : p'.vertex_list.length = n - 1 := by
          rw [hring]
          have := List.length_erase_add_one hmem2
          omega
        have := ih (n - 1) (by omega) hlen' hInv' hl tr hm
        rw [hvvert] at this
        exact this
    · rw [loop_done hsize] at h
      cases h
      cases htr

/-- `triangulate` applied through a successful construction. -/
theorem triangulate_eq {vs : List Vec2} {p0 : Polygon} (h : mkPolygon vs = .ok p0) :
    triangulate vs = triangulateLoop p0 := by
  unfold triangulate
  rw [h]

/-- A successful `triangulate` factors through a successful construction. -/
theorem triangulate_ok_inv {vs : List Vec2} {ts : List (Triangle ℕ)}
    (h : triangulate vs = .ok ts) :
    ∃ p0, mkPolygon vs = .ok p0 ∧ triangulateLoop p0 = .ok ts := by
  unfold triangulate at h
  cases hm : mkPolygon vs with
  | error e => rw [hm] at h; cases h
  | ok p0 =>
    rw [hm] at h
    exact ⟨p0, rfl, h⟩

/-! ### Concrete runs used by the counterexamples and witnesses -/

/-- A counter-clockwise triangle. -/
def ccwTri : List Vec2 := [⟨0, 0⟩, ⟨1, 0⟩, ⟨0, 1⟩]

/-- The same triangle wound clockwise. -/
def cwTri : List Vec2 := [⟨0, 0⟩, ⟨0, 1⟩, ⟨1, 0⟩]

/-- The state `polygon(ccwTri)` constructs. -/
def ccwP0 : Polygon := ⟨ccwTri, [0, 1, 2], [0, 1], [], [0, 1]⟩

/-- The state after the driver's first `remove_vertex` on `ccwP0`. -/
def ccwP1 : Polygon := ⟨ccwTri, [1, 2], [1], [], [1]⟩

/-- The state `polygon(cwTri)` constructs. -/
def cwP0 : Polygon := ⟨cwTri, [0, 1, 2], [], [0, 1], []⟩

theorem gfact1 : geom.is_convex ⟨⟨0, 1⟩, ⟨0, 0⟩, ⟨1, 0⟩⟩ = true := by
  norm_num [geom.is_convex, geom.detT, geom.det]

theorem gfact2 : geom.is_reflex ⟨⟨0, 1⟩, ⟨0, 0⟩, ⟨1, 0⟩⟩ = false := by
  norm_num [geom.is_reflex, geom.detT, geom.det]

theorem gfact3 : geom.is_convex ⟨⟨0, 0⟩, ⟨1, 0⟩, ⟨0, 1⟩⟩ = true := by
  norm_num [geom.is_convex, geom.detT, geom.det]

theorem gfact4 : geom.is_reflex ⟨⟨0, 0⟩, ⟨1, 0⟩, ⟨0, 1⟩⟩ = false := by
  norm_num [geom.is_reflex, geom.detT, geom.det]

theorem gfact5 : geom.is_convex ⟨⟨1, 0⟩, ⟨0, 0⟩, ⟨0, 1⟩⟩ = false := by
  norm_num [geom.is_convex, geom.detT, geom.det]

theorem gfact6 : geom.is_reflex ⟨⟨1, 0⟩, ⟨0, 0⟩, ⟨0, 1⟩⟩ = true := by
  norm_num [geom.is_reflex, geom.detT, geom.det]

theorem gfact7 : geom.is_convex ⟨⟨0, 0⟩, ⟨0, 1⟩, ⟨1, 0⟩⟩ = false := by
  norm_num [geom.is_convex, geom.detT, geom.det]

theorem gfact8 : geom.is_reflex ⟨⟨0, 0⟩, ⟨0, 1⟩, ⟨1, 0⟩⟩ = true := by
  norm_num [geom.is_reflex, geom.detT, geom.det]

theorem ixf0 : List.indexOf 0 [0, 1, 2] = 0 := by rfl

theorem ixf1 : List.indexOf 1 [0, 1, 2] = 1 := by rfl

theorem ixf2 : List.indexOf 2 [0, 1, 2] = 2 := by rfl

theorem rngf : List.range 3 = [0, 1, 2] := by rfl

/-- The construction run on the counter-clockwise triangle. -/
theorem emk_ccw : mkPolygon ccwTri = .ok ccwP0 := by
  simp +decide [mkPolygon, classifyLoop, earLoop, ccwTri, ccwP0, rngf,
    Polygon.build_real_triangle_at, Polygon.build_fake_triangle_at, build_triangle_at_element,
    build_triangle_at_index, Polygon.make_real, make_triangle_real, Polygon.is_ear,
    Polygon.earScan, sInsert, sErase, gfact1, gfact2, gfact3, gfact4,
    is_convex_last_eq, is_reflex_last_eq, ixf0, ixf1, ixf2]

/-- The construction run on the clockwise triangle. -/
theorem emk_cw : mkPolygon cwTri = .ok cwP0 := by
  simp +decide [mkPolygon, classifyLoop, earLoop, cwTri, cwP0, rngf,
    Polygon.build_real_triangle_at, Polygon.build_fake_triangle_at, build_triangle_at_element,
    build_triangle_at_index, Polygon.make_real, make_triangle_real, Polygon.is_ear,
    Polygon.earScan, sInsert, sErase, gfact5, gfact6, gfact7, gfact8,
    is_convex_last_eq, is_reflex_last_eq, ixf0, ixf1, ixf2]

/-- The driver's first removal on the counter-clockwise triangle. -/
theorem erem_ccw : Polygon.remove_vertex ccwP0 0 = .ok (⟨2, 0, 1⟩, ccwP1) := by
  simp +decide [Polygon.remove_vertex, Polygon.update_vertex, Polygon.update_vertex_convexity,
    Polygon.update_vertex_earness, Polygon.is_convex, Polygon.is_ear, Polygon.earScan,
    Polygon.build_real_triangle_at, Polygon.build_fake_triangle_at, build_triangle_at_element,
    build_triangle_at_index, Polygon.make_real, make_triangle_real, sInsert, sErase,
    ccwP0, ccwP1, ccwTri, is_convex_last_eq, is_reflex_last_eq, is_convex_outer_eq,
    is_reflex_outer_eq, ixf0, ixf1, ixf2]

/-- The current local triangle of vertex 1 after the first removal: its outer
corners coincide, so it is degenerate. -/
theorem ebuild_ccwP1 : Polygon.build_real_triangle_at ccwP1 1 =
    .ok ⟨⟨0, 1⟩, ⟨1, 0⟩, ⟨0, 1⟩⟩ := by
  simp +decide [Polygon.build_real_triangle_at, Polygon.build_fake_triangle_at,
    build_triangle_at_element, build_triangle_at_index, Polygon.make_real,
    make_triangle_real, ccwP1, ccwTri]

/-- The full driver run on the counter-clockwise triangle. -/
theorem etri_ccw : triangulate ccwTri = .ok [⟨2, 0, 1⟩] := by
  rw [triangulate_eq emk_ccw]
  rw [loop_step_ok (by decide) (by rfl) erem_ccw (loop_done (by decide))]

/-- The full driver run on the clockwise triangle: no ear exists at size 3. -/
theorem etri_cw : triangulate cwTri = .error .nonSimple := by
  rw [triangulate_eq emk_cw]
  exact loop_no_ear (by decide) (by decide)

/-- A polygon of fewer than three points triangulates to the empty list
without any error. -/
theorem triangulate_small {vs : List Vec2} (h : vs.length < 3) :
    triangulate vs = .ok [] := by
  match vs with
  | [] =>
    rw [triangulate_eq (show mkPolygon [] = .ok ⟨[], [], [], [], []⟩ from rfl)]
    exact loop_done (by decide)
  | [a] =>
    have hm : mkPolygon [a] = .ok ⟨[a], [0], [], [], []⟩ := by
      simp +decide [mkPolygon, classifyLoop, earLoop,
        Polygon.build_real_triangle_at, Polygon.build_fake_triangle_at,
        build_triangle_at_element, build_triangle_at_index, Polygon.make_real,
        make_triangle_real, Polygon.is_ear, Polygon.earScan, sInsert, sErase,
        is_convex_last_eq, is_reflex_last_eq, is_convex_outer_eq, is_reflex_outer_eq]
    rw [triangulate_eq hm]
    exact loop_done (by simp)
  | [a, b] =>
    have hm : mkPolygon [a, b] = .ok ⟨[a, b], [0, 1], [], [], []⟩ := by
      simp +decide [mkPolygon, classifyLoop, earLoop,
        Polygon.build_real_triangle_at, Polygon.build_fake_triangle_at,
        build_triangle_at_element, build_triangle_at_index, Polygon.make_real,
        make_triangle_real, Polygon.is_ear, Polygon.earScan, sInsert, sErase,
        is_convex_last_eq, is_reflex_last_eq, is_convex_outer_eq, is_reflex_outer_eq]
    rw [triangulate_eq hm]
    exact loop_done (by simp)
  | a :: b :: c :: rest => simp at h; omega

/-- The local triangle of vertex 0 in the freshly constructed
counter-clockwise state. -/
theorem ebuild_ccwP0_0 : Polygon.build_real_triangle_at ccwP0 0 =
    .ok ⟨⟨0, 1⟩, ⟨0, 0⟩, ⟨1, 0⟩⟩ := by
  simp +decide [Polygon.build_real_triangle_at, Polygon.build_fake_triangle_at,
    build_triangle_at_element, build_triangle_at_index, Polygon.make_real,
    make_triangle_real, ccwP0, ccwTri, ixf0]

/-- The local triangle of vertex 1 in the freshly constructed
counter-clockwise state. -/
theorem ebuild_ccwP0_1 : Polygon.build_real_triangle_at ccwP0 1 =
    .ok ⟨⟨0, 0⟩, ⟨1, 0⟩, ⟨0, 1⟩⟩ := by
  simp +decide [Polygon.build_real_triangle_at, Polygon.build_fake_triangle_at,
    build_triangle_at_element, build_triangle_at_index, Polygon.make_real,
    make_triangle_real, ccwP0, ccwTri, ixf1]

/-! ### The claims -/

/-- Claim C1 (counterexample): in the driver run on a counter-clockwise
triangle, the very first `RemoveVertex` (on the ear chosen by the driver)
leaves vertex 1 in the ear set although its current local triangle is
degenerate, hence not convex — so the ear set does not contain exactly the
vertices with convex local triangles and clear reflex scans. -/
theorem C1_counterexample :
    mkPolygon ccwTri = .ok ccwP0 ∧ 2 < ccwP0.vertex_list.length ∧
    ccwP0.get_next_ear = .ok 0 ∧ ccwP0.remove_vertex 0 = .ok (⟨2, 0, 1⟩, ccwP1) ∧
    1 ∈ ccwP1.vertex_list ∧ 1 ∈ ccwP1.ear_list ∧
    ccwP1.build_real_triangle_at 1 = .ok ⟨⟨0, 1⟩, ⟨1, 0⟩, ⟨0, 1⟩⟩ ∧
    geom.is_convex ⟨⟨0, 1⟩, ⟨1, 0⟩, ⟨0, 1⟩⟩ = false :=
  ⟨emk_ccw, by decide, by rfl, erem_ccw, by decide, by decide, ebuild_ccwP1,
    is_convex_outer_eq _ _⟩

/-- Claim C1 (amended): after construction and after every `RemoveVertex` the
driver performs, the ear set contains exactly those ring vertices that are in
the cached convex set and whose current local triangle contains no reflex-set
member's point. (Membership in the convex set can disagree with fresh
geometric convexity of the current triangle, which is what the original
claim's "triangle is convex" wording would demand.) -/
theorem C1_ear_set_exact {vs : List Vec2} {p0 p : Polygon}
    (hm : mkPolygon vs = .ok p0) (hs : Steps p0 p) :
    ∀ w ∈ p.vertex_list, ∀ t, p.build_real_triangle_at w = .ok t →
      (w ∈ p.ear_list ↔ (w ∈ p.convex_list ∧ ScanClear p t)) := by
  intro w hw t ht
  exact ((steps_inv (mkPolygon_inv hm) hs).1).earIff w hw t ht

/-- Claim C1 (witness): the characterisation instantiated at vertex 0 of the
freshly built counter-clockwise triangle. -/
theorem C1_witness :
    0 ∈ ccwP0.ear_list ↔ (0 ∈ ccwP0.convex_list ∧
      ScanClear ccwP0 ⟨⟨0, 1⟩, ⟨0, 0⟩, ⟨1, 0⟩⟩) :=
  C1_ear_set_exact emk_ccw (Steps.refl _) 0 (by decide) _ ebuild_ccwP0_0

/-- Modelled from the spec: the cyclic neighbour triple, "the element after
the last is the first" and the element before the first is the last. -/
def cyclic_triangle_at_index (v : List ℕ) (i : ℕ) : Triangle ℕ :=
  ⟨v.getD ((i + v.length - 1) % v.length) 0, v.getD i 0, v.getD ((i + 1) % v.length) 0⟩

/-- Claim C2: at the last position the code returns the last element itself as
the successor, not the first element as the cyclic interpretation demands; the
comment on `build_triangle_at_index` ("the two neighbours of the element")
and the symmetric cyclic handling of the predecessor of position 0 show the
intent, so this is a slip in the code. -/
theorem C2_last_position_eval :
    build_triangle_at_index [10, 20, 30] 2 = .ok ⟨20, 30, 30⟩ ∧
    cyclic_triangle_at_index [10, 20, 30] 2 = ⟨20, 30, 10⟩ ∧
    (⟨20, 30, 30⟩ : Triangle ℕ) ≠ ⟨20, 30, 10⟩ := by
  refine ⟨?_, by decide, by decide⟩
  rfl

/-- Claim C3 (counterexample): a simple, non-degenerate triangle — wound
clockwise — makes `triangulate` throw the non-simple failure instead of
returning `3 - 2 = 1` triangle. -/
theorem C3_counterexample :
    geom.detT ⟨⟨0, 0⟩, ⟨0, 1⟩, ⟨1, 0⟩⟩ ≠ 0 ∧ cwTri.length = 3 ∧
    triangulate cwTri = .error .nonSimple :=
  ⟨by norm_num [geom.detT, geom.det], by rfl, etri_cw⟩

/-- Claim C3 (amended): whenever `triangulate` returns normally on an input of
at least three points, the result holds exactly `n - 2` triangles, one per
removed vertex — but `triangulate` does not return normally on every simple
polygon (clockwise winding fails). -/
theorem C3_output_count {vs : List Vec2} {ts : List (Triangle ℕ)}
    (h3 : 3 ≤ vs.length) (h : triangulate vs = .ok ts) :
    ts.length = vs.length - 2 := by
  obtain ⟨p0, hm, hl⟩ := triangulate_ok_inv h
  have hlen : p0.vertex_list.length = vs.length := by
    rw [(mkPolygon_spec hm).2.1]
    simp
  have := loop_len hlen (by omega) hl
  omega

/-- Claim C3 (witness): the counter-clockwise triangle yields exactly one
triangle. -/
theorem C3_witness : ([⟨2, 0, 1⟩] : List (Triangle ℕ)).length = ccwTri.length - 2 :=
  C3_output_count (by decide) etri_ccw

/-- Claim C4 (counterexample): an input of two points does not fail with an
out-of-range error — it returns normally with an empty triangle list. -/
theorem C4_counterexample : triangulate [⟨0, 0⟩, ⟨1, 0⟩] = .ok [] :=
  triangulate_small (by decide)

/-- Claim C4 (amended): for every input of fewer than three points the
triangulation returns normally with the empty triangle list; the bounds
checks that would raise out-of-range are never reached because no ring
position is ever indexed out of range for these sizes. -/
theorem C4_small_input {vs : List Vec2} (h : vs.length < 3) :
    triangulate vs = .ok [] :=
  triangulate_small h

/-- Claim C4 (witness): the empty input. -/
theorem C4_witness : triangulate [] = .ok [] :=
  C4_small_input (by decide)

/-- Claim C5: the driver fails exactly when some driver-reachable state still
has more than two ring vertices but an empty ear set, and the only failure
signal is the non-simple one; the error result carries no triangle list, so a
caller never sees partial output. -/
theorem C5_non_simple_failure {vs : List Vec2} {p0 : Polygon}
    (hm : mkPolygon vs = .ok p0) :
    (∀ q, Steps p0 q → 2 < q.vertex_list.length → q.ear_list = [] →
      triangulate vs = .error .nonSimple) ∧
    (∀ e, triangulate vs = .error e →
      e = .nonSimple ∧ ∃ q, Steps p0 q ∧ 2 < q.vertex_list.length ∧ q.ear_list = []) := by
  constructor
  · intro q hs hq he
    rw [triangulate_eq hm]
    exact loop_error_steps hs (loop_no_ear hq he)
  · intro e he
    rw [triangulate_eq hm] at he
    exact loop_error_full rfl (mkPolygon_inv hm) he

/-- Claim C5 (witness): the clockwise triangle starts with three ring vertices
and no ear, and the run indeed fails non-simple. -/
theorem C5_witness : triangulate cwTri = .error .nonSimple :=
  (C5_non_simple_failure emk_cw).1 cwP0 (Steps.refl _) (by decide) (by decide)

/-- Claim C6: every triangle of a successful run names three pairwise distinct
indices, each a valid index into the input point sequence. -/
theorem C6_output_indices {vs : List Vec2} {ts : List (Triangle ℕ)}
    (h : triangulate vs = .ok ts) :
    ∀ tr ∈ ts, (tr.A ≠ tr.B ∧ tr.B ≠ tr.C ∧ tr.A ≠ tr.C) ∧
      tr.A < vs.length ∧ tr.B < vs.length ∧ tr.C < vs.length := by
  obtain ⟨p0, hm, hl⟩ := triangulate_ok_inv h
  intro tr htr
  have hres := loop_output rfl (mkPolygon_inv hm) hl tr htr
  rw [(mkPolygon_spec hm).1] at hres
  exact hres

/-- Claim C6 (witness): the triangle emitted for the counter-clockwise run. -/
theorem C6_witness :
    (((⟨2, 0, 1⟩ : Triangle ℕ).A ≠ (⟨2, 0, 1⟩ : Triangle ℕ).B ∧
      (⟨2, 0, 1⟩ : Triangle ℕ).B ≠ (⟨2, 0, 1⟩ : Triangle ℕ).C ∧
      (⟨2, 0, 1⟩ : Triangle ℕ).A ≠ (⟨2, 0, 1⟩ : Triangle ℕ).C) ∧
     (⟨2, 0, 1⟩ : Triangle ℕ).A < ccwTri.length ∧
     (⟨2, 0, 1⟩ : Triangle ℕ).B < ccwTri.length ∧
     (⟨2, 0, 1⟩ : Triangle ℕ).C < ccwTri.length) :=
  C6_output_indices etri_ccw ⟨2, 0, 1⟩ (by decide)

/-- Claim C7: a successful `RemoveVertex` returns the triple (cyclic
predecessor, vertex, positional successor), re-evaluates exactly those two
former neighbours, and leaves every other vertex's membership in the three
classification sets unchanged. -/
theorem C7_remove_frame {p : Polygon} {v : ℕ} {t : Triangle ℕ} {p' : Polygon}
    (nd : p.vertex_list.Nodup) (h : p.remove_vertex v = .ok (t, p')) :
    (t.B = v ∧ p.vertex_list.indexOf v + 1 < p.vertex_list.length ∧
     t.A = p.vertex_list.getD (prevIdx p.vertex_list.length (p.vertex_list.indexOf v)) 0 ∧
     t.C = p.vertex_list.getD (p.vertex_list.indexOf v + 1) 0) ∧
    ∀ w, w ≠ v → w ≠ t.A → w ≠ t.C →
      ((w ∈ p'.convex_list ↔ w ∈ p.convex_list) ∧
       (w ∈ p'.reflex_list ↔ w ∈ p.reflex_list) ∧
       (w ∈ p'.ear_list ↔ w ∈ p.ear_list)) := by
  obtain ⟨hmem, hnl, htA, htB, htC⟩ := remove_vertex_tri nd h
  obtain ⟨p2, hb, hA, hC⟩ := remove_vertex_inv h
  refine ⟨⟨htB, hnl, htA, htC⟩, ?_⟩
  intro w hwv hwA hwC
  obtain ⟨_, _, hfr2⟩ := update_vertex_frame hC
  obtain ⟨_, _, hfr1⟩ := update_vertex_frame hA
  obtain ⟨hc2, hr2, he2⟩ := hfr2 w hwC
  obtain ⟨hc1, hr1, he1⟩ := hfr1 w hwA
  refine ⟨?_, ?_, ?_⟩
  · rw [hc2, hc1]
    simp only [mem_sErase]
    exact ⟨fun hx => hx.1, fun hx => ⟨hx, hwv⟩⟩
  · rw [hr2, hr1]
    simp only [mem_sErase]
    exact ⟨fun hx => hx.1, fun hx => ⟨hx, hwv⟩⟩
  · rw [he2, he1]
    simp only [mem_sErase]
    exact ⟨fun hx => hx.1, fun hx => ⟨hx, hwv⟩⟩

/-- Claim C7 (witness): the frame property instantiated at the first removal
of the counter-clockwise run and a vertex that is neither the removed one nor
one of its neighbours. -/
theorem C7_witness :
    (3 ∈ ccwP1.convex_list ↔ 3 ∈ ccwP0.convex_list) ∧
    (3 ∈ ccwP1.reflex_list ↔ 3 ∈ ccwP0.reflex_list) ∧
    (3 ∈ ccwP1.ear_list ↔ 3 ∈ ccwP0.ear_list) :=
  (C7_remove_frame (by decide) erem_ccw).2 3 (by decide) (by decide) (by decide)

/-- Claim C8 (counterexample): in the driver-reached state after the first
removal of the counter-clockwise run, `is_convex` answers true for vertex 1
from the stale cache although a fresh geometric recomputation of its current
local triangle answers false. -/
theorem C8_counterexample :
    ccwP0.remove_vertex 0 = .ok (⟨2, 0, 1⟩, ccwP1) ∧
    Polygon.is_convex ccwP1 1 = .ok true ∧
    ccwP1.build_real_triangle_at 1 = .ok ⟨⟨0, 1⟩, ⟨1, 0⟩, ⟨0, 1⟩⟩ ∧
    geom.is_convex ⟨⟨0, 1⟩, ⟨1, 0⟩, ⟨0, 1⟩⟩ = false :=
  ⟨erem_ccw, by rfl, ebuild_ccwP1, is_convex_outer_eq _ _⟩

/-- Claim C8 (amended): in driver-reachable states, `is_reflex` always agrees
with a fresh geometric recomputation of the current local triangle, and a
geometrically convex triangle always makes `is_convex` answer true; but
`is_convex` may also answer true from a stale cache entry when the current
triangle no longer tests convex. -/
theorem C8_classification_queries {vs : List Vec2} {p0 p : Polygon}
    (hm : mkPolygon vs = .ok p0) (hs : Steps p0 p) :
    ∀ w t, p.build_real_triangle_at w = .ok t →
      (p.is_reflex w = .ok (geom.is_reflex t) ∧
       (geom.is_convex t = true → p.is_convex w = .ok true)) := by
  intro w t hb
  have hInv := (steps_inv (mkPolygon_inv hm) hs).1
  constructor
  · by_cases hmr : w ∈ p.reflex_list
    · have hg := (hInv.reflexOk w hmr).2 t hb
      unfold Polygon.is_reflex
      rw [if_pos hmr, hg]
    · unfold Polygon.is_reflex
      rw [if_neg hmr, hb]
  · intro hg
    by_cases hmc : w ∈ p.convex_list
    · exact is_convex_of_mem hmc
    · rw [is_convex_of_not_mem hmc hb, hg]

/-- Claim C8 (witness): the amended statement instantiated at vertex 1 of the
freshly built counter-clockwise state. -/
theorem C8_witness :
    Polygon.is_reflex ccwP0 1 = .ok (geom.is_reflex ⟨⟨0, 0⟩, ⟨1, 0⟩, ⟨0, 1⟩⟩) ∧
    (geom.is_convex ⟨⟨0, 0⟩, ⟨1, 0⟩, ⟨0, 1⟩⟩ = true →
      Polygon.is_convex ccwP0 1 = .ok true) :=
  C8_classification_queries emk_ccw (Steps.refl _) 1 _ ebuild_ccwP0_1

/-- Claim C9: for a non-degenerate triangle, the containment test returns true
exactly on the points inside or on the boundary of the triangle. -/
theorem C9_point_in_triangle_correct (tri : Triangle Vec2) (pt : Vec2)
    (hD : geom.detT tri ≠ 0) :
    geom.point_in_triangle tri pt = true ↔ InClosedTriangle tri pt :=
  point_in_triangle_correct tri pt hD

/-- Claim C9 (witness): the corner of a concrete non-degenerate triangle is in
its closed hull. -/
theorem C9_witness : InClosedTriangle ⟨⟨0, 0⟩, ⟨1, 0⟩, ⟨0, 1⟩⟩ ⟨0, 0⟩ :=
  (C9_point_in_triangle_correct ⟨⟨0, 0⟩, ⟨1, 0⟩, ⟨0, 1⟩⟩ ⟨0, 0⟩
    (by norm_num [geom.detT, geom.det])).mp (pit_corner_A _)

/-- Claim C10: in driver-reachable states, `get_next_ear` returns the least
element of the ear set (the head of the sorted set). -/
theorem C10_next_ear_min {vs : List Vec2} {p0 p : Polygon} {v : ℕ}
    (hm : mkPolygon vs = .ok p0) (hs : Steps p0 p) (hv : p.get_next_ear = .ok v) :
    v ∈ p.ear_list ∧ ∀ x ∈ p.ear_list, v ≤ x := by
  have hInv := (steps_inv (mkPolygon_inv hm) hs).1
  have hsorted := hInv.earSorted
  unfold Polygon.get_next_ear at hv
  cases he : p.ear_list with
  | nil => rw [he] at hv; cases hv
  | cons a l =>
    rw [he] at hv
    have hva : a = v := Except.ok.inj hv
    subst hva
    rw [he] at hsorted
    rw [List.sorted_cons] at hsorted
    refine ⟨List.mem_cons_self a l, ?_⟩
    intro x hx
    rcases List.mem_cons.mp hx with h1 | h1
    · exact le_of_eq h1.symm
    · exact le_of_lt (hsorted.1 x h1)

/-- Claim C10 (witness): on the freshly built counter-clockwise state the next
ear is 0, the least member of the ear set. -/
theorem C10_witness : 0 ∈ ccwP0.ear_list ∧ ∀ x ∈ ccwP0.ear_list, 0 ≤ x :=
  C10_next_ear_min emk_ccw (Steps.refl _) (by rfl)
